import Mathlib

set_option maxHeartbeats 1000000

/-!
Verification of the nanolang toolchain against its specification.

Shallow embedding conventions: machine integers (`isize`/`usize`,
`i128`/`u128`, `i64`) are modelled as `Int`/`Nat` with wrapping
arithmetic expressed as residues modulo `2 ^ w`; Rust `Vec`/slices
become `List`; `HashMap`s whose iteration order is irrelevant become
association lists; fallible code returns `Except`/`Option`, with
`Option.none` standing for a Rust panic (`unwrap` / `unreachable!`).
-/

namespace Flat

/-- Reinterpretation of a `w`-bit pattern (a residue `n < 2 ^ w`) as a
two's-complement signed integer, i.e. the `as isize` cast. -/
def asSigned (w : Nat) (n : Nat) : Int :=
  if n < 2 ^ (w - 1) then (n : Int) else (n : Int) - 2 ^ w

/-- Embedding of `flat/src/zigzag.rs::to_usize` (with `w = 64`) and
`to_u128` (with `w = 128`): `let double_x = x << 1` is the wrapping
double, and each arm casts the (wrapping) signed result to the unsigned
type, which is the residue modulo `2 ^ w`.  The guard
`x.is_positive() || x == 0` is exactly `0 ≤ x`. -/
def zigzagToUnsigned (w : Nat) (x : Int) : Nat :=
  if 0 ≤ x then ((2 * x) % (2 ^ w : Int)).toNat
  else ((-(2 * x) - 1) % (2 ^ w : Int)).toNat

/-- `zigzag.rs::to_usize`. -/
def to_usize (x : Int) : Nat := zigzagToUnsigned 64 x

/-- `zigzag.rs::to_u128`. -/
def to_u128 (x : Int) : Nat := zigzagToUnsigned 128 x

/-- Embedding of `flat/src/zigzag.rs::to_isize` (with `w = 64`) and
`to_i128` (with `w = 128`): `((u >> 1) as isize) ^ (-((u & 1) as isize))`.
The negation is the wrapping machine negation (residue modulo `2 ^ w`),
the xor acts on the `w`-bit patterns, and the result is read back as a
signed integer. -/
def zigzagToSigned (w : Nat) (u : Nat) : Int :=
  asSigned w ((u >>> 1) ^^^ ((-((u &&& 1 : Nat) : Int)) % (2 ^ w : Int)).toNat)

/-- `zigzag.rs::to_isize`. -/
def to_isize (u : Nat) : Int := zigzagToSigned 64 u

/-- `zigzag.rs::to_i128`. -/
def to_i128 (u : Nat) : Int := zigzagToSigned 128 u

theorem xor_all_ones {n a : Nat} (h : a < 2 ^ n) :
    a ^^^ (2 ^ n - 1) = 2 ^ n - 1 - a := by
  induction n generalizing a with
  | zero =>
    have : a = 0 := by omega
    subst this; decide
  | succ n ih =>
    have h1 : 1 ≤ 2 ^ n := Nat.one_le_two_pow
    have h2 : (2 : Nat) ^ (n + 1) - 1 = Nat.bit true (2 ^ n - 1) := by
      simp [Nat.bit_val]; omega
    induction a using Nat.bitCasesOn with
    | h b q =>
    have hq : q < 2 ^ n := by
      cases b <;> simp [Nat.bit_val] at h ⊢ <;> omega
    rw [h2, Nat.xor_bit, ih hq]
    cases b <;> simp [Nat.bit_val] <;> omega

theorem zigzagToSigned_eq (w u : Nat) (hw : 1 ≤ w) (hu : u < 2 ^ w) :
    zigzagToSigned w u =
      if u % 2 = 0 then ((u / 2 : Nat) : Int) else -((u / 2 : Nat) : Int) - 1 := by
  have hpow : (2 : Nat) ^ w = 2 * 2 ^ (w - 1) := by
    conv_lhs => rw [show w = (w - 1) + 1 by omega]
    ring
  have hhalf : u >>> 1 = u / 2 := by
    simp [Nat.shiftRight_eq_div_pow]
  have hdivlt : u / 2 < 2 ^ (w - 1) := by omega
  have hand : u &&& 1 = u % 2 := Nat.and_one_is_mod u
  rcases Nat.even_or_odd u with he | ho
  · have hmod : u % 2 = 0 := Nat.even_iff.mp he
    have : (-(((u &&& 1 : Nat) : Int))) % (2 ^ w : Int) = 0 := by
      rw [hand, hmod]; simp
    rw [zigzagToSigned, this]
    rw [if_pos hmod]
    simp only [Int.toNat_zero, Nat.xor_zero, hhalf, asSigned, if_pos hdivlt]
  · have hmod : u % 2 = 1 := Nat.odd_iff.mp ho
    have h2w : (2 : Int) ≤ (2 ^ w : Int) := by
      calc (2 : Int) = 2 ^ 1 := by norm_num
      _ ≤ 2 ^ w := by
        apply pow_le_pow_right₀ <;> omega
    have hneg : (-(((u &&& 1 : Nat) : Int))) % (2 ^ w : Int) = (2 ^ w : Int) - 1 := by
      rw [hand, hmod]
      rw [Int.neg_emod]
      push_cast
      apply Int.emod_eq_of_lt <;> omega
    have htn : ((-(((u &&& 1 : Nat) : Int))) % (2 ^ w : Int)).toNat = 2 ^ w - 1 := by
      rw [hneg]
      have : ((2 : Int) ^ w) = ((2 ^ w : Nat) : Int) := by push_cast; ring
      omega
    rw [zigzagToSigned, htn, hhalf]
    have hxor : u / 2 ^^^ (2 ^ w - 1) = 2 ^ w - 1 - u / 2 :=
      xor_all_ones (by omega)
    rw [hxor, asSigned]
    have h1 : 1 ≤ 2 ^ (w - 1) := Nat.one_le_two_pow
    rw [if_neg (by omega)]
    have hcast : (((2 ^ w - 1 - u / 2 : Nat)) : Int) = (2 ^ w : Nat) - 1 - (u / 2 : Nat) := by
      omega
    rw [hcast, hmod]
    have : ((2 : Int) ^ w) = ((2 ^ w : Nat) : Int) := by push_cast; ring
    simp only [if_neg (by omega : ¬ (1 : Nat) = 0)]
    omega

theorem zigzagToUnsigned_eq (w : Nat) (x : Int) (hw : 1 ≤ w)
    (hlo : -(2 ^ (w - 1)) ≤ x) (hhi : x < 2 ^ (w - 1)) :
    ((zigzagToUnsigned w x : Nat) : Int) =
      if 0 ≤ x then 2 * x else -(2 * x) - 1 := by
  have hpow : (2 : Int) ^ w = 2 * 2 ^ (w - 1) := by
    conv_lhs => rw [show w = (w - 1) + 1 by omega]
    ring
  rcases le_or_lt 0 x with hx | hx
  · rw [zigzagToUnsigned, if_pos hx, if_pos hx]
    rw [Int.emod_eq_of_lt (by omega) (by omega)]
    omega
  · rw [zigzagToUnsigned, if_neg (by omega), if_neg (by omega)]
    rw [Int.emod_eq_of_lt (by omega) (by omega)]
    omega

theorem zigzag_roundtrip_signed (w : Nat) (x : Int) (hw : 1 ≤ w)
    (hlo : -(2 ^ (w - 1)) ≤ x) (hhi : x < 2 ^ (w - 1)) :
    zigzagToSigned w (zigzagToUnsigned w x) = x := by
  have hu := zigzagToUnsigned_eq w x hw hlo hhi
  have hupow : ((2 ^ w : Nat) : Int) = (2 : Int) ^ w := by push_cast; ring
  have hpow : (2 : Int) ^ w = 2 * 2 ^ (w - 1) := by
    conv_lhs => rw [show w = (w - 1) + 1 by omega]
    ring
  have hult : zigzagToUnsigned w x < 2 ^ w := by
    rcases le_or_lt 0 x with hx | hx
    · rw [if_pos hx] at hu; omega
    · rw [if_neg (by omega)] at hu; omega
  rw [zigzagToSigned_eq w _ hw hult]
  rcases le_or_lt 0 x with hx | hx
  · rw [if_pos hx] at hu
    have hmod : zigzagToUnsigned w x % 2 = 0 := by omega
    rw [if_pos hmod]; omega
  · rw [if_neg (by omega)] at hu
    have hmod : zigzagToUnsigned w x % 2 = 1 := by omega
    rw [if_neg (by omega)]; omega

theorem zigzag_roundtrip_unsigned (w : Nat) (u : Nat) (hw : 1 ≤ w)
    (hu : u < 2 ^ w) :
    zigzagToUnsigned w (zigzagToSigned w u) = u := by
  have hpow : (2 : Nat) ^ w = 2 * 2 ^ (w - 1) := by
    conv_lhs => rw [show w = (w - 1) + 1 by omega]
    ring
  have hupow : ((2 ^ w : Nat) : Int) = (2 : Int) ^ w := by push_cast; ring
  have hbp : ((2 ^ (w - 1) : Nat) : Int) = (2 : Int) ^ (w - 1) := by push_cast; ring
  have hs := zigzagToSigned_eq w u hw hu
  rcases Nat.even_or_odd u with he | ho
  · have hmod : u % 2 = 0 := Nat.even_iff.mp he
    rw [if_pos hmod] at hs
    have hx : (0 : Int) ≤ zigzagToSigned w u := by rw [hs]; positivity
    have := zigzagToUnsigned_eq w (zigzagToSigned w u) hw
      (by rw [hs]; have : (0:Int) ≤ ((u / 2 : Nat) : Int) := by positivity
          have h1 : (0:Int) < 2 ^ (w-1) := by positivity
          omega)
      (by rw [hs]
          have : ((u / 2 : Nat) : Int) < 2 ^ (w - 1) := by
            rw [← hbp]
            exact_mod_cast (by omega : u / 2 < 2 ^ (w - 1))
          omega)
    rw [if_pos hx] at this
    rw [hs] at this ⊢
    omega
  · have hmod : u % 2 = 1 := Nat.odd_iff.mp ho
    rw [if_neg (by omega)] at hs
    have hdl : u / 2 < 2 ^ (w - 1) := by omega
    have hdli : ((u / 2 : Nat) : Int) < 2 ^ (w - 1) := by exact_mod_cast hdl
    have hx : zigzagToSigned w u < 0 := by
      rw [hs]
      have : (0:Int) ≤ ((u / 2 : Nat) : Int) := by positivity
      omega
    have := zigzagToUnsigned_eq w (zigzagToSigned w u) hw
      (by rw [hs]; omega)
      (by rw [hs]
          have : (0:Int) ≤ ((u / 2 : Nat) : Int) := by positivity
          have h1 : (0:Int) < 2 ^ (w-1) := by positivity
          omega)
    rw [if_neg (by omega)] at this
    rw [hs] at this ⊢
    omega

/-- Claim C1: the ZigZag codec is a bijection.  For every 64-bit signed
integer `x`, `to_isize (to_usize x) = x`, and for every 64-bit unsigned
`u`, `to_usize (to_isize u) = u`; the same round trip holds for the
128-bit pair `to_u128` / `to_i128`.  Moreover `to_usize x = 2 * x` when
`x ≥ 0` and `-2 * x - 1` when `x < 0`, and `to_isize u` is the integer
xor `(u >>> 1) ^^^ -(u &&& 1)`. -/
theorem C1_zigzag_bijection :
    (∀ x : Int, -(2 ^ 63) ≤ x → x < 2 ^ 63 → to_isize (to_usize x) = x) ∧
    (∀ u : Nat, u < 2 ^ 64 → to_usize (to_isize u) = u) ∧
    (∀ x : Int, -(2 ^ 127) ≤ x → x < 2 ^ 127 → to_i128 (to_u128 x) = x) ∧
    (∀ u : Nat, u < 2 ^ 128 → to_u128 (to_i128 u) = u) ∧
    (∀ x : Int, 0 ≤ x → x < 2 ^ 63 → ((to_usize x : Nat) : Int) = 2 * x) ∧
    (∀ x : Int, -(2 ^ 63) ≤ x → x < 0 → ((to_usize x : Nat) : Int) = -(2 * x) - 1) ∧
    (∀ u : Nat, u < 2 ^ 64 →
      to_isize u = Int.xor ((u >>> 1 : Nat) : Int) (-((u &&& 1 : Nat) : Int))) := by
  refine ⟨?_, ?_, ?_, ?_, ?_, ?_, ?_⟩
  · exact fun x h1 h2 => zigzag_roundtrip_signed 64 x (by norm_num) h1 h2
  · exact fun u h => zigzag_roundtrip_unsigned 64 u (by norm_num) h
  · exact fun x h1 h2 => zigzag_roundtrip_signed 128 x (by norm_num) h1 h2
  · exact fun u h => zigzag_roundtrip_unsigned 128 u (by norm_num) h
  · intro x h1 h2
    have := zigzagToUnsigned_eq 64 x (by norm_num)
      (le_trans (by norm_num) h1) (by simpa using h2)
    rw [if_pos h1] at this
    exact this
  · intro x h1 h2
    have := zigzagToUnsigned_eq 64 x (by norm_num)
      (by simpa using h1) (lt_trans h2 (by norm_num))
    rw [if_neg (by omega)] at this
    rw [to_usize, this]
  · intro u hu
    have hs := zigzagToSigned_eq 64 u (by norm_num) hu
    have hhalf : u >>> 1 = u / 2 := by simp [Nat.shiftRight_eq_div_pow]
    have hand : u &&& 1 = u % 2 := Nat.and_one_is_mod u
    rcases Nat.even_or_odd u with he | ho
    · have hmod : u % 2 = 0 := Nat.even_iff.mp he
      rw [if_pos hmod] at hs
      rw [to_isize, hs, hhalf, hand, hmod]
      have hneg : (-((0 : Nat) : Int)) = ((0 ^^^ 0 : Nat) : Int) := by norm_num
      have hx : Int.xor ((u / 2 : Nat) : Int) (((0 : Nat) : Int)) =
          ((u / 2 ^^^ 0 : Nat) : Int) := rfl
      rw [show (-((0 : Nat) : Int)) = (((0 : Nat) : Int)) by norm_num, hx, Nat.xor_zero]
    · have hmod : u % 2 = 1 := Nat.odd_iff.mp ho
      rw [if_neg (by omega)] at hs
      rw [to_isize, hs, hhalf, hand, hmod]
      rw [show (-((1 : Nat) : Int)) = Int.negSucc 0 from rfl]
      have hx : Int.xor ((u / 2 : Nat) : Int) (Int.negSucc 0) =
          Int.negSucc (u / 2 ^^^ 0) := rfl
      rw [hx, Nat.xor_zero, Int.negSucc_eq]
      ring

/-- Concrete instances of Claim C1, discharging its hypotheses: the
scenario values `to_usize (-1) = 1`, `to_usize 1 = 2`, `to_usize (-2) = 3`
and both round trips at those points. -/
theorem C1_zigzag_bijection_witness :
    to_isize (to_usize (-1)) = -1 ∧ to_usize (to_isize 7) = 7 ∧
    to_i128 (to_u128 (-5)) = -5 ∧ to_u128 (to_i128 9) = 9 ∧
    ((to_usize 1 : Nat) : Int) = 2 ∧ ((to_usize (-2) : Nat) : Int) = 3 ∧
    to_isize 7 = Int.xor ((7 >>> 1 : Nat) : Int) (-((7 &&& 1 : Nat) : Int)) := by
  obtain ⟨h1, h2, h3, h4, h5, h6, h7⟩ := C1_zigzag_bijection
  refine ⟨h1 (-1) (by norm_num) (by norm_num),
    h2 7 (by norm_num),
    h3 (-5) (by norm_num) (by norm_num),
    h4 9 (by norm_num),
    ?_, ?_, h7 7 (by norm_num)⟩
  · have := h5 1 (by norm_num) (by norm_num); omega
  · have := h6 (-2) (by norm_num) (by norm_num); omega

end Flat

namespace GenUplc

/-- Embedding of `gen_uplc/scope.rs::Scope::common_ancestor`: the indexed
loop body, starting at `index`.  `a[index]?` is `self.0.get(index)`; a
missing entry on either side returns that side, a disagreement returns
`self.0[0..index]`, and running past both lists returns the default
(empty) scope. -/
def commonAncestorFrom (a b : List Nat) (index : Nat) : List Nat :=
  if index < max a.length b.length then
    match a[index]?, b[index]? with
    | none, _ => a
    | some _, none => b
    | some x, some y =>
      if x ≠ y then a.take index
      else commonAncestorFrom a b (index + 1)
  else []
termination_by max a.length b.length - index

/-- `Scope::common_ancestor`: the equality fast path, then the loop. -/
def common_ancestor (a b : List Nat) : List Nat :=
  if a = b then a else commonAncestorFrom a b 0

/-- `Scope::replace`: `self.0.drain(0..common.len())` keeps the suffix
after the shared part, and `replacement.0.extend(..)` prepends the
replacement scope. -/
def replaceScope (dest repl : List Nat) : List Nat :=
  repl ++ dest.drop (common_ancestor dest repl).length

/-- An Air instruction, abstracted over its payload: every `Air` variant
carries a `scope` field accessed through `scope_mut`. -/
structure AirInstr (α : Type) where
  scope : List Nat
  op : α
deriving DecidableEq

/-- `gen_uplc/stack.rs::AirStack` (the `id_gen` handle is irrelevant to
merging and omitted). -/
structure AirStack (α : Type) where
  scope : List Nat
  air : List (AirInstr α)
deriving DecidableEq

/-- `AirStack::merge`: append the other stack's instructions. -/
def merge {α : Type} (s other : AirStack α) : AirStack α :=
  { s with air := s.air ++ other.air }

/-- `AirStack::merge_child`: rewrite every child instruction's scope with
`replace(self.scope)`, then merge. -/
def merge_child {α : Type} (s other : AirStack α) : AirStack α :=
  merge s { other with
    air := other.air.map fun i => { i with scope := replaceScope i.scope s.scope } }

/-- The longest shared stem of two lists, written as the specification
describes it: match elements from the front for as long as they agree. -/
def sharedStem : List Nat → List Nat → List Nat
  | x :: xs, y :: ys => if x = y then x :: sharedStem xs ys else []
  | _, _ => []

theorem sharedStem_cons_same (x : Nat) (xs ys : List Nat) :
    sharedStem (x :: xs) (x :: ys) = x :: sharedStem xs ys := by
  simp [sharedStem]

theorem sharedStem_self (a : List Nat) : sharedStem a a = a := by
  induction a with
  | nil => rfl
  | cons x xs ih => rw [sharedStem_cons_same, ih]

theorem sharedStem_left (a b : List Nat) : sharedStem a b <+: a := by
  induction a generalizing b with
  | nil => cases b <;> simp [sharedStem]
  | cons x xs ih =>
    cases b with
    | nil => simp [sharedStem]
    | cons y ys =>
      by_cases h : x = y
      · subst h
        rw [sharedStem_cons_same]
        obtain ⟨t, ht⟩ := ih ys
        exact ⟨t, by rw [List.cons_append, ht]⟩
      · simp [sharedStem, h]

theorem sharedStem_comm (a b : List Nat) : sharedStem a b = sharedStem b a := by
  induction a generalizing b with
  | nil => cases b <;> simp [sharedStem]
  | cons x xs ih =>
    cases b with
    | nil => simp [sharedStem]
    | cons y ys =>
      by_cases h : x = y
      · subst h; rw [sharedStem_cons_same, sharedStem_cons_same, ih]
      · simp [sharedStem, h, Ne.symm h]

theorem sharedStem_right (a b : List Nat) : sharedStem a b <+: b := by
  rw [sharedStem_comm]; exact sharedStem_left b a

theorem sharedStem_longest (a b p : List Nat) (ha : p <+: a) (hb : p <+: b) :
    p <+: sharedStem a b := by
  induction p generalizing a b with
  | nil => exact List.nil_prefix
  | cons x xs ih =>
    obtain ⟨ta, rfl⟩ := ha
    obtain ⟨tb, hb2⟩ := hb
    cases b with
    | nil => simp at hb2
    | cons y ys =>
      simp only [List.cons_append, List.cons.injEq] at hb2
      obtain ⟨rfl, hys⟩ := hb2
      rw [List.cons_append, sharedStem_cons_same]
      obtain ⟨t, ht⟩ := ih (xs ++ ta) ys ⟨ta, rfl⟩ ⟨tb, hys⟩
      exact ⟨t, by rw [List.cons_append, ht]⟩

theorem sharedStem_of_left_le (a b : List Nat) (h : a <+: b) :
    sharedStem a b = a := by
  induction a generalizing b with
  | nil => cases b <;> simp [sharedStem]
  | cons x xs ih =>
    obtain ⟨t, rfl⟩ := h
    rw [List.cons_append, sharedStem_cons_same, ih (xs ++ t) ⟨t, rfl⟩]

theorem sharedStem_take (a b : List Nat) (i : Nat) (htake : a.take i = b.take i)
    (x y : Nat) (hx : a[i]? = some x) (hy : b[i]? = some y) (hxy : x ≠ y) :
    sharedStem a b = a.take i := by
  induction i generalizing a b with
  | zero =>
    cases a with
    | nil => simp at hx
    | cons a0 as =>
      cases b with
      | nil => simp at hy
      | cons b0 bs =>
        simp only [List.getElem?_cons_zero, Option.some.injEq] at hx hy
        subst hx; subst hy
        simp [sharedStem, hxy]
  | succ i ih =>
    cases a with
    | nil => simp at hx
    | cons a0 as =>
      cases b with
      | nil => simp at hy
      | cons b0 bs =>
        simp only [List.take_succ_cons, List.cons.injEq] at htake
        obtain ⟨rfl, htk⟩ := htake
        simp only [List.getElem?_cons_succ] at hx hy
        rw [sharedStem_cons_same, List.take_succ_cons, ih as bs htk hx hy]

theorem commonAncestorFrom_eq (a b : List Nat) (hne : a ≠ b) :
    ∀ i, a.take i = b.take i → commonAncestorFrom a b i = sharedStem a b := by
  have hterm : ∀ n i, max a.length b.length - i = n → a.take i = b.take i →
      commonAncestorFrom a b i = sharedStem a b := by
    intro n
    induction n with
    | zero =>
      intro i hn htake
      exfalso
      apply hne
      have ha : a.length ≤ i := by omega
      have hb : b.length ≤ i := by omega
      calc a = a.take i := (List.take_of_length_le ha).symm
        _ = b.take i := htake
        _ = b := List.take_of_length_le hb
    | succ n ih =>
      intro i hn htake
      rw [commonAncestorFrom]
      rw [if_pos (by omega)]
      cases hx : a[i]? with
      | none =>
        have ha : a.length ≤ i := by
          by_contra hlt
          rw [List.getElem?_eq_getElem (by omega)] at hx
          simp at hx
        have hab : a <+: b := by
          have : a = b.take i := by
            rw [← htake, List.take_of_length_le ha]
          rw [this]
          exact List.take_prefix i b
        simp only []
        rw [sharedStem_of_left_le a b hab]
      | some x =>
        cases hy : b[i]? with
        | none =>
          have hb : b.length ≤ i := by
            by_contra hlt
            rw [List.getElem?_eq_getElem (by omega)] at hy
            simp at hy
          have hba : b <+: a := by
            have : b = a.take i := by
              rw [htake, List.take_of_length_le hb]
            rw [this]
            exact List.take_prefix i a
          simp only []
          rw [sharedStem_comm, sharedStem_of_left_le b a hba]
        | some y =>
          by_cases hxy : x = y
          · subst hxy
            simp only []
            rw [if_neg (by simp)]
            apply ih (i + 1) (by omega)
            have hia : i < a.length := by
              by_contra hlt
              rw [List.getElem?_eq_none (by omega)] at hx
              simp at hx
            have hib : i < b.length := by
              by_contra hlt
              rw [List.getElem?_eq_none (by omega)] at hy
              simp at hy
            rw [List.take_succ, List.take_succ, htake, hx, hy]
          · simp only []
            rw [if_pos (by simpa using hxy)]
            exact (sharedStem_take a b i htake x y hx hy hxy).symm
  intro i htake
  exact hterm (max a.length b.length - i) i rfl htake

theorem common_ancestor_eq_sharedStem (a b : List Nat) :
    common_ancestor a b = sharedStem a b := by
  rw [common_ancestor]
  by_cases h : a = b
  · subst h; rw [if_pos rfl, sharedStem_self]
  · rw [if_neg h]
    exact commonAncestorFrom_eq a b h 0 rfl

/-- Claim C3: after `s.merge_child c`, every instruction that came from
`c` appears with its scope rewritten by `replace`, and `s`'s scope is a
prefix (an initial segment) of that rewritten scope; `replace dest repl`
is `repl ++ dest[|common_ancestor dest repl|..]`; and `common_ancestor`
returns the longest shared initial segment of its arguments. -/
theorem C3_merge_child_scope :
    (∀ (α : Type) (s c : AirStack α) (i : AirInstr α), i ∈ c.air →
      s.scope <+: replaceScope i.scope s.scope ∧
        (⟨replaceScope i.scope s.scope, i.op⟩ : AirInstr α) ∈ (merge_child s c).air) ∧
    (∀ dest repl : List Nat,
      replaceScope dest repl = repl ++ dest.drop (common_ancestor dest repl).length) ∧
    (∀ a b : List Nat,
      common_ancestor a b <+: a ∧ common_ancestor a b <+: b ∧
        ∀ p : List Nat, p <+: a → p <+: b → p <+: common_ancestor a b) := by
  refine ⟨?_, fun _ _ => rfl, ?_⟩
  · intro α s c i hi
    refine ⟨⟨_, rfl⟩, ?_⟩
    simp only [merge_child, merge, List.mem_append, List.mem_map]
    exact Or.inr ⟨i, hi, rfl⟩
  · intro a b
    rw [common_ancestor_eq_sharedStem]
    exact ⟨sharedStem_left a b, sharedStem_right a b, fun p hp hq =>
      sharedStem_longest a b p hp hq⟩

/-- Concrete instance of Claim C3: merging a child holding one
instruction scoped `[1, 2, 7]` into a stack scoped `[1, 3]` rewrites the
instruction scope to `[1, 3, 2, 7]`, of which `[1, 3]` is an initial
segment. -/
theorem C3_merge_child_scope_witness :
    ([1, 3] : List Nat) <+: replaceScope [1, 2, 7] [1, 3] ∧
      (⟨replaceScope [1, 2, 7] [1, 3], 0⟩ : AirInstr Nat) ∈
        (merge_child ⟨[1, 3], []⟩ ⟨[1, 2], [⟨[1, 2, 7], 0⟩]⟩).air :=
  C3_merge_child_scope.1 Nat ⟨[1, 3], []⟩ ⟨[1, 2], [⟨[1, 2, 7], 0⟩]⟩
    ⟨[1, 2, 7], 0⟩ (by simp)

end GenUplc

namespace Uplc

/-- `untyped_plutus_core/src/ast.rs::Type` (constant type tags). -/
inductive Typ : Type
  | bool
  | integer
  | string
  | byteString
  | unit
  | list (t : Typ)
  | pair (t1 t2 : Typ)
  | data
deriving DecidableEq

/-- The `pallas` CBOR bignum: `Int` (a machine-range integer) or a
big-endian magnitude with explicit sign. -/
inductive PallasBigInt : Type
  | int (i : Int)
  | bigUInt (bytes : List Nat)
  | bigNInt (bytes : List Nat)
deriving DecidableEq

/-- The `pallas` `PlutusData` tree: constructors, maps, bignums, bounded
byte strings and arrays. -/
inductive PlutusData : Type
  | constr (tag : Nat) (anyConstructor : Option Nat) (fields : List PlutusData)
  | map (pairs : List (PlutusData × PlutusData))
  | bigInt (i : PallasBigInt)
  | boundedBytes (bytes : List Nat)
  | array (items : List PlutusData)

/-- `untyped_plutus_core/src/ast.rs::Constant`.  `BigInt` becomes `Int`,
byte strings become lists of byte values, and Rust strings become lists
of characters (so `chars().count()` is `List.length`). -/
inductive Constant : Type
  | integer (i : Int)
  | byteString (b : List Nat)
  | string (s : List Char)
  | unit
  | bool (b : Bool)
  | protoList (t : Typ) (items : List Constant)
  | protoPair (t1 t2 : Typ) (c1 c2 : Constant)
  | data (d : PlutusData)

/-- `untyped_plutus_core/src/ast.rs::NamedDeBruijn`. -/
structure NamedDeBruijn : Type where
  text : String
  index : Nat
deriving DecidableEq

/-- `untyped_plutus_core/src/ast.rs::Term<NamedDeBruijn>`.  Modelled from
the spec: the `DefaultFunction` builtin enum lives outside `src/`; only
its identity matters here, so a builtin is its numeric tag. -/
inductive Term : Type
  | var (name : NamedDeBruijn)
  | delay (t : Term)
  | lambda (parameterName : NamedDeBruijn) (body : Term)
  | app (function argument : Term)
  | constant (c : Constant)
  | force (t : Term)
  | error
  | builtin (f : Nat)

/-- Modelled from the spec: `ExBudget` is the pair `(cpu, mem)` of signed
counters consumed by the machine (`machine/cost_model.rs` is outside
`src/`). -/
structure ExBudget : Type where
  cpu : Int
  mem : Int
deriving DecidableEq

/-- Modelled from the spec: the machine error taxonomy of section 7
(`machine/error.rs` is outside `src/`); `EvalResult::failed` only asks
whether an error is present at all. -/
inductive MachineError : Type
  | openTermEvaluated
  | typeMismatch
  | listTypeMismatch
  | pairTypeMismatch
  | nonConstantToConstant
  | outOfExError
  | explicitErrorTerm
deriving DecidableEq

/-- `machine/eval_result.rs::EvalResult`. -/
structure EvalResult : Type where
  result : Except MachineError Term
  remainingBudget : ExBudget
  initialBudget : ExBudget
  logs : List String

/-- `EvalResult::failed`: the disjunction of the three `matches!` tests
of the source. -/
def EvalResult.failed (r : EvalResult) : Bool :=
  (match r.result with
    | .error _ => true
    | _ => false) ||
  (match r.result with
    | .ok .error => true
    | _ => false) ||
  (match r.result with
    | .ok (.constant (.bool false)) => true
    | _ => false)

/-- `EvalResult::cost`: initial budget minus remaining budget. -/
def EvalResult.cost (r : EvalResult) : ExBudget :=
  ⟨r.initialBudget.cpu - r.remainingBudget.cpu,
   r.initialBudget.mem - r.remainingBudget.mem⟩

/-- Claim C10: `EvalResult::failed` returns `true` exactly when the
result is a machine error, the term `Error`, or the constant
`Bool(false)`; in particular a successful evaluation to the constant
`false` is classified as failed even though its result is `Ok`. -/
theorem C10_eval_result_failed :
    (∀ (res : Except MachineError Term) (rb ib : ExBudget) (logs : List String),
      EvalResult.failed ⟨res, rb, ib, logs⟩ = true ↔
        ((∃ e, res = .error e) ∨ res = .ok .error ∨
          res = .ok (.constant (.bool false)))) ∧
    (∀ (rb ib : ExBudget) (logs : List String),
      EvalResult.failed ⟨.ok (.constant (.bool false)), rb, ib, logs⟩ = true) := by
  constructor
  · intro res rb ib logs
    rcases res with e | t
    · simp [EvalResult.failed]
    · cases t <;> try (simp [EvalResult.failed]; done)
      case constant c =>
        cases c <;> try (simp [EvalResult.failed]; done)
        case bool b => cases b <;> simp [EvalResult.failed]
  · intro rb ib logs
    rfl

end Uplc

namespace Uplc

/-- Little-endian base-256 digits of a natural number (empty for zero):
the digit stream underlying `num_bigint::BigInt::to_bytes_be`. -/
def bytesLE : Nat → List Nat
  | 0 => []
  | n + 1 => ((n + 1) % 256) :: bytesLE ((n + 1) / 256)
termination_by n => n
decreasing_by exact Nat.div_lt_self (by omega) (by omega)

/-- Big-endian bytes of a magnitude, as `to_bytes_be` returns them: the
minimal big-endian digits, with `[0]` for zero. -/
def bytesBE (n : Nat) : List Nat :=
  if n = 0 then [0] else (bytesLE n).reverse

/-- `u8::leading_zeros`. -/
def leadingZeros8 (u : Nat) : Nat :=
  if u = 0 then 8 else 8 - (Nat.log2 u + 1)

/-- `machine/value.rs::integer_log2`: take the big-endian bytes of the
(non-negative) argument and combine the bit length of the first byte
with eight bits per remaining byte.  The `None` arm is the
source's unreachable empty-number case. -/
def integer_log2 (i : Int) : Int :=
  let bytes := bytesBE i.toNat
  match bytes.head? with
  | none => 0
  | some u => (8 : Int) - leadingZeros8 u - 1 + 8 * ((bytes.length : Int) - 1)

/-- The `Constant::Integer` arm of `Value::to_ex_mem`. -/
def integerExMem (i : Int) : Int :=
  if i = 0 then 1 else integer_log2 |i| / 64 + 1

/-- The `Constant::ByteString` arm of `Value::to_ex_mem`. -/
def byteStringExMem (b : List Nat) : Int :=
  if b.isEmpty then 1 else ((b.length : Int) - 1) / 8 + 1

/-- Big-endian byte value, as `BigInt::from_bytes_be` reads a magnitude. -/
def bytesBEToNat (bs : List Nat) : Nat :=
  bs.foldl (fun acc b => 256 * acc + b) 0

/-- `machine/value.rs::from_pallas_bigint`. -/
def from_pallas_bigint : PallasBigInt → Int
  | .int i => i
  | .bigUInt bs => (bytesBEToNat bs : Int)
  | .bigNInt bs => -(bytesBEToNat bs : Int)

mutual

/-- Node count of a `PlutusData` tree (termination measure for the
work-stack traversal of `data_to_ex_mem`). -/
def pdSize : PlutusData → Nat
  | .constr _ _ fields => 1 + pdListSize fields
  | .map pairs => 1 + pdPairsSize pairs
  | .bigInt _ => 1
  | .boundedBytes _ => 1
  | .array items => 1 + pdListSize items

def pdListSize : List PlutusData → Nat
  | [] => 0
  | d :: ds => pdSize d + pdListSize ds

def pdPairsSize : List (PlutusData × PlutusData) → Nat
  | [] => 0
  | p :: ps => pdSize p.1 + pdSize p.2 + pdPairsSize ps

end

theorem pdSize_pos (d : PlutusData) : 1 ≤ pdSize d := by
  cases d <;> simp [pdSize]

theorem pdListSize_append (a b : List PlutusData) :
    pdListSize (a ++ b) = pdListSize a + pdListSize b := by
  induction a with
  | nil => simp [pdListSize]
  | cons d ds ih => simp [pdListSize, ih]; omega

/-- The interleaving `[k1, v1, k2, v2, ..]` that the `Map` arm of
`data_to_ex_mem` builds with its fold of `push_back(&d.0); push_back(&d.1)`. -/
def flatPairs : List (PlutusData × PlutusData) → List PlutusData
  | [] => []
  | p :: ps => p.1 :: p.2 :: flatPairs ps

theorem pdListSize_flatPairs (ps : List (PlutusData × PlutusData)) :
    pdListSize (flatPairs ps) = pdPairsSize ps := by
  induction ps with
  | nil => rfl
  | cons p ps ih => simp [flatPairs, pdListSize, pdPairsSize, ih]; omega

/-- `machine/value.rs::Value::data_to_ex_mem`: the work-stack loop.  Each
popped node adds 4; `Constr`, `Map` and `Array` push their children onto
the front of the stack (pairs flattened key-first), and the two leaf
forms add the metric of the corresponding `Integer` / `ByteString`
constant. -/
def dataExMemLoop : List PlutusData → Int
  | [] => 0
  | d :: rest =>
    match d with
    | .constr _ _ fields => 4 + dataExMemLoop (fields ++ rest)
    | .map pairs => 4 + dataExMemLoop (flatPairs pairs ++ rest)
    | .bigInt i => 4 + integerExMem (from_pallas_bigint i) + dataExMemLoop rest
    | .boundedBytes b => 4 + byteStringExMem b + dataExMemLoop rest
    | .array items => 4 + dataExMemLoop (items ++ rest)
termination_by stack => pdListSize stack
decreasing_by
  all_goals simp only [pdListSize, pdListSize_append, pdListSize_flatPairs, pdSize]
  all_goals omega

/-- `data_to_ex_mem` on a single tree: the loop started with that tree. -/
def dataExMem (d : PlutusData) : Int := dataExMemLoop [d]

mutual

/-- The `Value::Con` branch of `machine/value.rs::Value::to_ex_mem`,
by constant shape (each recursive call rewraps the element in
`Value::Con`, so the recursion is on the constant alone). -/
def conExMem : Constant → Int
  | .integer i => integerExMem i
  | .byteString b => byteStringExMem b
  | .string s => (s.length : Int)
  | .unit => 1
  | .bool _ => 1
  | .protoList _ items => conListExMem items
  | .protoPair _ _ c1 c2 => conExMem c1 + conExMem c2
  | .data d => dataExMem d

/-- The `ProtoList` fold `items.iter().fold(0, |acc, c| acc + ..)`. -/
def conListExMem : List Constant → Int
  | [] => 0
  | c :: cs => conExMem c + conListExMem cs

end

/-- `machine/value.rs::Value` (the builtin runtime is its partial
application state — remaining forces and accumulated arguments — as the
specification describes it; `to_ex_mem` never inspects it). -/
inductive Value : Type
  | con (c : Constant)
  | delay (t : Term) (env : List Value)
  | lambda (parameterName : NamedDeBruijn) (body : Term) (env : List Value)
  | builtin (f : Nat) (forces : Nat) (args : List Value)

/-- `machine/value.rs::Value::to_ex_mem`. -/
def Value.to_ex_mem : Value → Int
  | .con c => conExMem c
  | .delay _ _ => 1
  | .lambda _ _ _ => 1
  | .builtin _ _ _ => 1

mutual

/-- The memory metric of a `PlutusData` tree as the specification words
it: a traversal that adds 4 for every node and additionally the integer
or byte-string metric at the leaves. -/
def dataSpec : PlutusData → Int
  | .constr _ _ fields => 4 + dataSpecList fields
  | .map pairs => 4 + dataSpecPairs pairs
  | .bigInt i => 4 + integerExMem (from_pallas_bigint i)
  | .boundedBytes b => 4 + byteStringExMem b
  | .array items => 4 + dataSpecList items

def dataSpecList : List PlutusData → Int
  | [] => 0
  | d :: ds => dataSpec d + dataSpecList ds

def dataSpecPairs : List (PlutusData × PlutusData) → Int
  | [] => 0
  | p :: ps => dataSpec p.1 + dataSpec p.2 + dataSpecPairs ps

end

theorem dataSpecList_append (a b : List PlutusData) :
    dataSpecList (a ++ b) = dataSpecList a + dataSpecList b := by
  induction a with
  | nil => simp [dataSpecList]
  | cons d ds ih => simp [dataSpecList, ih]; ring

theorem dataSpecList_flatPairs (ps : List (PlutusData × PlutusData)) :
    dataSpecList (flatPairs ps) = dataSpecPairs ps := by
  induction ps with
  | nil => rfl
  | cons p ps ih => simp [flatPairs, dataSpecList, dataSpecPairs, ih]; ring

theorem dataExMemLoop_eq_dataSpecList (stack : List PlutusData) :
    dataExMemLoop stack = dataSpecList stack := by
  have H : ∀ n stack, pdListSize stack ≤ n → dataExMemLoop stack = dataSpecList stack := by
    intro n
    induction n with
    | zero =>
      intro stack h
      cases stack with
      | nil => simp [dataExMemLoop, dataSpecList]
      | cons d rest =>
        exfalso
        have := pdSize_pos d
        simp [pdListSize] at h
        omega
    | succ n ih =>
      intro stack h
      cases stack with
      | nil => simp [dataExMemLoop, dataSpecList]
      | cons d rest =>
        have hd := pdSize_pos d
        rw [pdListSize] at h
        cases d with
        | constr tag anyc fields =>
          rw [pdSize] at h hd
          rw [dataExMemLoop, dataSpecList, dataSpec,
            ih (fields ++ rest) (by rw [pdListSize_append]; omega),
            dataSpecList_append]
          ring
        | map pairs =>
          rw [pdSize] at h hd
          rw [dataExMemLoop, dataSpecList, dataSpec,
            ih (flatPairs pairs ++ rest)
              (by rw [pdListSize_append, pdListSize_flatPairs]; omega),
            dataSpecList_append, dataSpecList_flatPairs]
          ring
        | bigInt i =>
          rw [dataExMemLoop, dataSpecList, dataSpec, ih rest (by omega)]
        | boundedBytes b =>
          rw [dataExMemLoop, dataSpecList, dataSpec, ih rest (by omega)]
        | array items =>
          rw [pdSize] at h hd
          rw [dataExMemLoop, dataSpecList, dataSpec,
            ih (items ++ rest) (by rw [pdListSize_append]; omega),
            dataSpecList_append]
          ring
  exact H (pdListSize stack) stack le_rfl

theorem dataExMem_eq_dataSpec (d : PlutusData) : dataExMem d = dataSpec d := by
  rw [dataExMem, dataExMemLoop_eq_dataSpecList, dataSpecList, dataSpecList]
  ring

end Uplc

namespace Uplc

theorem log2_div_pow (n m : Nat) : Nat.log2 (n / 2 ^ m) = Nat.log2 n - m := by
  induction m with
  | zero => simp
  | succ m ih =>
    rw [pow_succ, ← Nat.div_div_eq_div_mul]
    rw [Nat.log2_eq_log_two, Nat.log_div_base, ← Nat.log2_eq_log_two, ih]
    omega

theorem bytesLE_ne_nil (n : Nat) (hn : 1 ≤ n) : bytesLE n ≠ [] := by
  cases n with
  | zero => omega
  | succ m => rw [bytesLE]; simp

theorem bytesLE_length (n : Nat) (hn : 1 ≤ n) :
    (bytesLE n).length = Nat.log 256 n + 1 := by
  have H : ∀ k n, n ≤ k → 1 ≤ n → (bytesLE n).length = Nat.log 256 n + 1 := by
    intro k
    induction k with
    | zero => intro n h h1; omega
    | succ k ih =>
      intro n h h1
      cases n with
      | zero => omega
      | succ m =>
        rw [bytesLE]
        by_cases hlt : m + 1 < 256
        · have hq : (m + 1) / 256 = 0 := Nat.div_eq_of_lt hlt
          rw [hq, bytesLE]
          simp [Nat.log_eq_zero_iff.mpr (Or.inl hlt)]
        · have hge : 256 ≤ m + 1 := by omega
          have hq1 : 1 ≤ (m + 1) / 256 := (Nat.one_le_div_iff (by norm_num)).mpr hge
          have hqk : (m + 1) / 256 ≤ k := by
            have := Nat.div_lt_self (by omega : 0 < m + 1) (by norm_num : 1 < 256)
            omega
          have hlog : 1 ≤ Nat.log 256 (m + 1) := Nat.log_pos (by norm_num) hge
          simp only [List.length_cons, ih _ hqk hq1, Nat.log_div_base]
          omega
  exact H n n le_rfl hn

theorem bytesLE_getLast? (n : Nat) (hn : 1 ≤ n) :
    (bytesLE n).getLast? = some (n / 256 ^ Nat.log 256 n) := by
  have H : ∀ k n, n ≤ k → 1 ≤ n →
      (bytesLE n).getLast? = some (n / 256 ^ Nat.log 256 n) := by
    intro k
    induction k with
    | zero => intro n h h1; omega
    | succ k ih =>
      intro n h h1
      cases n with
      | zero => omega
      | succ m =>
        rw [bytesLE]
        by_cases hlt : m + 1 < 256
        · have hq : (m + 1) / 256 = 0 := Nat.div_eq_of_lt hlt
          rw [hq, bytesLE]
          rw [Nat.log_eq_zero_iff.mpr (Or.inl hlt)]
          simp [Nat.mod_eq_of_lt hlt]
        · have hge : 256 ≤ m + 1 := by omega
          have hq1 : 1 ≤ (m + 1) / 256 := (Nat.one_le_div_iff (by norm_num)).mpr hge
          have hqk : (m + 1) / 256 ≤ k := by
            have := Nat.div_lt_self (by omega : 0 < m + 1) (by norm_num : 1 < 256)
            omega
          have hlog : 1 ≤ Nat.log 256 (m + 1) := Nat.log_pos (by norm_num) hge
          obtain ⟨b, l, hbl⟩ : ∃ b l, bytesLE ((m + 1) / 256) = b :: l := by
            cases hb : bytesLE ((m + 1) / 256) with
            | nil => exact absurd hb (bytesLE_ne_nil _ hq1)
            | cons b l => exact ⟨b, l, rfl⟩
          rw [hbl, List.getLast?_cons_cons, ← hbl, ih _ hqk hq1]
          rw [Nat.log_div_base, Nat.div_div_eq_div_mul]
          congr 2
          rw [← pow_succ']
          congr 1
          omega
  exact H n n le_rfl hn

theorem integer_log2_eq (n : Nat) (hn : 1 ≤ n) :
    integer_log2 (n : Int) = (Nat.log2 n : Int) := by
  have hk : (256 : Nat) ^ Nat.log 256 n = 2 ^ (8 * Nat.log 256 n) := by
    rw [show (256 : Nat) = 2 ^ 8 by norm_num, ← pow_mul]
  set k := Nat.log 256 n with hkdef
  set msd := n / 256 ^ k with hmsd
  have hmsd1 : 1 ≤ msd := by
    rw [hmsd]
    exact (Nat.one_le_div_iff (Nat.pos_pow_of_pos k (by norm_num))).mpr
      (Nat.pow_log_le_self 256 (by omega))
  have hmsdlt : msd < 256 := by
    rw [hmsd]
    rw [Nat.div_lt_iff_lt_mul (Nat.pos_pow_of_pos k (by norm_num))]
    have h1 : n < 256 ^ (k + 1) := Nat.lt_pow_succ_log_self (by norm_num) n
    rw [pow_succ] at h1
    omega
  have hlogmsd : Nat.log2 msd = Nat.log2 n - 8 * k := by
    rw [hmsd, hk, log2_div_pow]
  have h8k : 8 * k ≤ Nat.log2 n := by
    rw [Nat.le_log2 (by omega), ← hk]
    exact Nat.pow_log_le_self 256 (by omega)
  have hmsdlog : Nat.log2 msd < 8 := by
    rw [Nat.log2_lt (by omega)]
    calc msd < 256 := hmsdlt
    _ = 2 ^ 8 := by norm_num
  have hrev : (bytesLE n).reverse.head? = some msd := by
    rw [List.head?_reverse, bytesLE_getLast? n hn, hmsd]
  have hlen : (bytesLE n).reverse.length = k + 1 := by
    rw [List.length_reverse, bytesLE_length n hn]
  rw [integer_log2]
  simp only [Int.toNat_ofNat, bytesBE, if_neg (by omega : ¬ n = 0), hrev, hlen]
  rw [leadingZeros8, if_neg (by omega : ¬ msd = 0)]
  have hcast : ((8 - (Nat.log2 msd + 1) : Nat) : Int) = 8 - (Nat.log2 msd : Int) - 1 := by
    omega
  rw [hcast]
  push_cast
  omega

theorem conListExMem_eq_sum (items : List Constant) :
    conListExMem items = (items.map conExMem).sum := by
  induction items with
  | nil => simp [conListExMem]
  | cons c cs ih => rw [conListExMem, List.map_cons, List.sum_cons, ih]

/-- Claim C2 counterexample: the specification says the integer metric is
`⌈log2 |n| / 64⌉ + 1` and the byte-string metric `⌈(len - 1) / 8⌉ + 1`,
but at `n = 2` (where `log2 2 = 1` exactly) the code yields `1` while the
ceiling formula yields `2`, and at `len = 2` the code yields `1` while
the ceiling formula yields `2`.  (`⌈a / b⌉ = (a + b - 1) / b`.) -/
theorem C2_to_ex_mem_counterexample :
    Value.to_ex_mem (.con (.integer 2)) = 1 ∧
    ((Nat.log2 (Int.natAbs 2) + 64 - 1) / 64 + 1 : Nat) = 2 ∧
    Value.to_ex_mem (.con (.byteString [3, 5])) = 1 ∧
    ((([3, 5] : List Nat).length - 1 + 8 - 1) / 8 + 1 : Nat) = 2 := by
  refine ⟨?_, by simp [Nat.log2], ?_, by simp⟩
  · have h2 : integer_log2 ((2 : Nat) : Int) = ((Nat.log2 2 : Nat) : Int) :=
      integer_log2_eq 2 (by norm_num)
    have hl : Nat.log2 2 = 1 := by simp [Nat.log2]
    rw [hl] at h2
    rw [Value.to_ex_mem, conExMem, integerExMem, if_neg (by norm_num)]
    rw [show |(2 : Int)| = ((2 : Nat) : Int) by norm_num, h2]
    decide
  · rw [Value.to_ex_mem, conExMem, byteStringExMem]
    simp

/-- Claim C2, amended: `Value::to_ex_mem` computes, per machine value:
for an `Integer` constant `n`, `⌊log2 |n|⌋ / 64 + 1` with flooring
integer division (and `1` when `n = 0`); for a `ByteString b`,
`(len b - 1) / 8 + 1` with flooring integer division (and `1` when `b`
is empty); for a `String`, its character count; `1` for `Unit` and
`Bool`; the sum of the element metrics for `ProtoList` and `ProtoPair`;
for `Data`, a traversal adding 4 per node plus the metric of its
integer / byte-string leaves; and `1` for `Delay`, `Lambda` and
`Builtin` values. -/
theorem C2_to_ex_mem_amended :
    (∀ i : Int, Value.to_ex_mem (.con (.integer i)) =
      if i = 0 then 1 else ((Nat.log2 i.natAbs / 64 : Nat) : Int) + 1) ∧
    (∀ b : List Nat, Value.to_ex_mem (.con (.byteString b)) =
      if b = [] then 1 else (((b.length - 1) / 8 : Nat) : Int) + 1) ∧
    (∀ s : List Char, Value.to_ex_mem (.con (.string s)) = (s.length : Int)) ∧
    Value.to_ex_mem (.con .unit) = 1 ∧
    (∀ bb : Bool, Value.to_ex_mem (.con (.bool bb)) = 1) ∧
    (∀ (t : Typ) (items : List Constant), Value.to_ex_mem (.con (.protoList t items)) =
      (items.map fun c => Value.to_ex_mem (.con c)).sum) ∧
    (∀ (t1 t2 : Typ) (c1 c2 : Constant), Value.to_ex_mem (.con (.protoPair t1 t2 c1 c2)) =
      Value.to_ex_mem (.con c1) + Value.to_ex_mem (.con c2)) ∧
    (∀ d : PlutusData, Value.to_ex_mem (.con (.data d)) = dataSpec d) ∧
    (∀ t env, Value.to_ex_mem (.delay t env) = 1) ∧
    (∀ p b env, Value.to_ex_mem (.lambda p b env) = 1) ∧
    (∀ f fo args, Value.to_ex_mem (.builtin f fo args) = 1) := by
  refine ⟨?_, ?_, fun s => rfl, rfl, fun bb => rfl, ?_, fun t1 t2 c1 c2 => rfl,
    ?_, fun t env => rfl, fun p b env => rfl, fun f fo args => rfl⟩
  · intro i
    rw [Value.to_ex_mem, conExMem, integerExMem]
    by_cases hi : i = 0
    · rw [if_pos hi, if_pos hi]
    · rw [if_neg hi, if_neg hi]
      have habs : |i| = ((i.natAbs : Nat) : Int) := by
        rw [Int.abs_eq_natAbs]
      have hna : 1 ≤ i.natAbs := by
        rcases Int.natAbs_eq i with h | h <;> omega
      rw [habs, integer_log2_eq i.natAbs hna]
      have h64 : ((Nat.log2 i.natAbs : Nat) : Int) / 64 = ((Nat.log2 i.natAbs / 64 : Nat) : Int) := by
        omega
      rw [h64]
  · intro b
    rw [Value.to_ex_mem, conExMem, byteStringExMem]
    by_cases hb : b = []
    · rw [if_pos (by simp [hb]), if_pos hb]
    · rw [if_neg (by simp [hb]), if_neg hb]
      have h1 : 1 ≤ b.length := by
        cases b with
        | nil => exact absurd rfl hb
        | cons x xs => simp
      omega
  · intro t items
    rw [Value.to_ex_mem, conExMem, conListExMem_eq_sum]
    rfl
  · intro d
    rw [Value.to_ex_mem, conExMem, dataExMem_eq_dataSpec]

end Uplc

namespace NanoLang

/-- Modelled from the spec: the source-pattern AST (`ast.rs` of the
`nano-lang` crate is outside `src/`).  Variants follow the grammar of
section 6 and the shapes matched in `tipo/env.rs`: literals,
variables, `p as x` assignments, wildcards, list patterns with an
optional spread tail, constructor patterns and tuples. -/
inductive Pattern : Type
  | int (value : String)
  | var (name : String)
  | assign (name : String) (pattern : Pattern)
  | discard (name : String)
  | list (elements : List Pattern) (tail : Option Pattern)
  | constructor (name : String) (args : List Pattern)
  | tuple (elems : List Pattern)

/-- The one-level `Assign` unwrapping that
`check_list_pattern_exhaustiveness` applies with its `map`. -/
def unwrapAssign : Pattern → Pattern
  | .assign _ p => p
  | p => p

/-- One iteration of the `for p in patterns` loop of
`env.rs::check_list_pattern_exhaustiveness`, updating the pair
`(cover_empty, cover_tail)`.  `none` is the `unreachable!()` panic on a
list tail that is neither a variable nor a wildcard. -/
def coverStep (flags : Bool × Bool) : Pattern → Option (Bool × Bool)
  | .var _ => some (true, true)
  | .discard _ => some (true, true)
  | .list elements tail =>
    let f1 := if elements.isEmpty then (true, flags.2) else flags
    match tail with
    | none => some f1
    | some (.discard _) => some (f1.1, true)
    | some (.var _) => some (f1.1, true)
    | some _ => none
  | _ => some flags

/-- The whole loop, threading the flag pair. -/
def coverFold : Bool × Bool → List Pattern → Option (Bool × Bool)
  | flags, [] => some flags
  | flags, p :: ps =>
    match coverStep flags (unwrapAssign p) with
    | none => none
    | some f2 => coverFold f2 ps

/-- `env.rs::Environment::check_list_pattern_exhaustiveness`: run the
loop from `(false, false)`, then either succeed or report the missing
forms, `"[]"` first. -/
def check_list_pattern_exhaustiveness (patterns : List Pattern) :
    Option (Except (List String) Unit) :=
  match coverFold (false, false) patterns with
  | none => none
  | some (coverEmpty, coverTail) =>
    if coverEmpty && coverTail then some (.ok ())
    else some (.error
      ((if coverEmpty then [] else ["[]"]) ++ (if coverTail then [] else ["[_, ..]"])))

/-- A clause covers the empty list `[]`: it is a variable or wildcard,
or a list pattern with no element patterns. -/
def coversEmptySpec : Pattern → Bool
  | .var _ => true
  | .discard _ => true
  | .list elements _ => elements.isEmpty
  | _ => false

/-- A clause covers the non-empty form `[_, ..]`: it is a variable or
wildcard, or a list pattern with a variable or wildcard spread tail. -/
def coversTailSpec : Pattern → Bool
  | .var _ => true
  | .discard _ => true
  | .list _ (some (.var _)) => true
  | .list _ (some (.discard _)) => true
  | _ => false

/-- List tails are variables or wildcards (what the parser produces; the
source asserts this with `unreachable!()`). -/
def tailOk : Pattern → Bool
  | .list _ (some (.var _)) => true
  | .list _ (some (.discard _)) => true
  | .list _ (some _) => false
  | _ => true

theorem coverFold_eq (ps : List Pattern) (flags : Bool × Bool)
    (hwf : ∀ p ∈ ps, tailOk (unwrapAssign p) = true) :
    coverFold flags ps =
      some (flags.1 || (ps.map unwrapAssign).any coversEmptySpec,
            flags.2 || (ps.map unwrapAssign).any coversTailSpec) := by
  induction ps generalizing flags with
  | nil => simp [coverFold]
  | cons p ps ih =>
    have hp : tailOk (unwrapAssign p) = true := hwf p (by simp)
    have hrest : ∀ q ∈ ps, tailOk (unwrapAssign q) = true := fun q hq =>
      hwf q (by simp [hq])
    obtain ⟨fa, fb⟩ := flags
    rw [coverFold, List.map_cons, List.any_cons, List.any_cons]
    cases hq : unwrapAssign p with
    | int v =>
      simp only [coverStep, ih _ hrest, coversEmptySpec, coversTailSpec]
      simp
    | assign nm q =>
      simp only [coverStep, ih _ hrest, coversEmptySpec, coversTailSpec]
      simp
    | constructor nm args =>
      simp only [coverStep, ih _ hrest, coversEmptySpec, coversTailSpec]
      simp
    | tuple els =>
      simp only [coverStep, ih _ hrest, coversEmptySpec, coversTailSpec]
      simp
    | var v =>
      simp only [coverStep, ih _ hrest, coversEmptySpec, coversTailSpec]
      simp
    | discard v =>
      simp only [coverStep, ih _ hrest, coversEmptySpec, coversTailSpec]
      simp
    | list els tl =>
      rw [hq] at hp
      cases tl with
      | none =>
        cases hels : els.isEmpty with
        | false =>
          have hne : ¬ (els.isEmpty = true) := by simp [hels]
          simp only [coverStep, hels, if_neg hne, ih _ hrest,
            coversEmptySpec, coversTailSpec]
          simp
        | true =>
          simp only [coverStep, hels, if_pos rfl, ih _ hrest,
            coversEmptySpec, coversTailSpec]
          simp
      | some t =>
        cases t with
        | var v =>
          cases hels : els.isEmpty with
          | false =>
            have hne : ¬ (els.isEmpty = true) := by simp [hels]
            simp only [coverStep, hels, if_neg hne, ih _ hrest,
              coversEmptySpec, coversTailSpec]
            simp [Bool.or_assoc]
          | true =>
            simp only [coverStep, hels, if_pos rfl, ih _ hrest,
              coversEmptySpec, coversTailSpec]
            simp
        | discard v =>
          cases hels : els.isEmpty with
          | false =>
            have hne : ¬ (els.isEmpty = true) := by simp [hels]
            simp only [coverStep, hels, if_neg hne, ih _ hrest,
              coversEmptySpec, coversTailSpec]
            simp [Bool.or_assoc]
          | true =>
            simp only [coverStep, hels, if_pos rfl, ih _ hrest,
              coversEmptySpec, coversTailSpec]
            simp
        | int v => simp [tailOk] at hp
        | assign nm q => simp [tailOk] at hp
        | list els2 tl2 => simp [tailOk] at hp
        | constructor nm args => simp [tailOk] at hp
        | tuple els2 => simp [tailOk] at hp

/-- Claim C5: matched against a `List` subject,
`check_list_pattern_exhaustiveness` succeeds exactly when some clause
covers `[]` and some clause covers `[_, ..]` (a variable or wildcard
clause covers both), and on failure it reports exactly the missing
forms; in particular clauses `[]` and `[_, _]` report missing
`[_, ..]`. -/
theorem C5_list_exhaustiveness (patterns : List Pattern)
    (hwf : ∀ p ∈ patterns, tailOk (unwrapAssign p) = true) :
    (check_list_pattern_exhaustiveness patterns = some (.ok ()) ↔
      ((∃ p ∈ patterns.map unwrapAssign, coversEmptySpec p = true) ∧
       (∃ p ∈ patterns.map unwrapAssign, coversTailSpec p = true))) ∧
    (check_list_pattern_exhaustiveness patterns =
      some (if (patterns.map unwrapAssign).any coversEmptySpec &&
               (patterns.map unwrapAssign).any coversTailSpec
            then .ok ()
            else .error
              ((if (patterns.map unwrapAssign).any coversEmptySpec then [] else ["[]"]) ++
               (if (patterns.map unwrapAssign).any coversTailSpec then [] else ["[_, ..]"])))) ∧
    (check_list_pattern_exhaustiveness
        [.list [] none, .list [.discard "_", .discard "_"] none] =
      some (.error ["[_, ..]"])) := by
  have hce := coverFold_eq patterns (false, false) hwf
  refine ⟨?_, ?_, rfl⟩
  · rw [check_list_pattern_exhaustiveness, hce]
    simp only [Bool.false_or]
    cases he : (patterns.map unwrapAssign).any coversEmptySpec <;>
      cases ht : (patterns.map unwrapAssign).any coversTailSpec <;>
      simp_all [List.any_eq_true]
  · rw [check_list_pattern_exhaustiveness, hce]
    simp only [Bool.false_or]
    cases he : (patterns.map unwrapAssign).any coversEmptySpec <;>
      cases ht : (patterns.map unwrapAssign).any coversTailSpec <;> simp

/-- Concrete instance of Claim C5: clauses `[]` and `[x, ..rest]` are
exhaustive (both coverage predicates are witnessed). -/
theorem C5_list_exhaustiveness_witness :
    check_list_pattern_exhaustiveness
      [.list [] none, .list [.discard "_"] (some (.var "rest"))] = some (.ok ()) := by
  have h := C5_list_exhaustiveness
    [.list [] none, .list [.discard "_"] (some (.var "rest"))]
    (by intro p hp
        simp only [List.mem_cons, List.not_mem_nil, or_false] at hp
        rcases hp with rfl | rfl <;> rfl)
  exact h.1.mpr
    ⟨⟨.list [] none, by simp [unwrapAssign], rfl⟩,
     ⟨.list [.discard "_"] (some (.var "rest")), by simp [unwrapAssign], rfl⟩⟩

end NanoLang

namespace NanoLang

/-- `tipo/env.rs::EntityKind`. -/
inductive EntityKind : Type
  | privateConstant
  | privateTypeConstructor (name : String)
  | privateFunction
  | importedConstructor
  | importedType
  | importedTypeAndConstructor
  | importedValue
  | privateType
  | variableKind
deriving DecidableEq

/-- The unused-entity warnings of `ast.rs::Warning` that
`Environment::handle_unused` can emit (locations are spans, modelled as
numbers). -/
inductive Warning : Type
  | unusedType (name : String) (imported : Bool) (location : Nat)
  | unusedConstructor (name : String) (imported : Bool) (location : Nat)
  | unusedPrivateModuleConstant (name : String) (location : Nat)
  | unusedPrivateFunction (name : String) (location : Nat)
  | unusedImportedValue (name : String) (location : Nat)
  | unusedVariable (name : String) (location : Nat)
deriving DecidableEq

/-- The `match kind` arm of `Environment::handle_unused`, mapping an
entity kind to the warning it emits. -/
def warningFor (name : String) (kind : EntityKind) (location : Nat) : Warning :=
  match kind with
  | .importedType => .unusedType name true location
  | .importedTypeAndConstructor => .unusedType name true location
  | .importedConstructor => .unusedConstructor name true location
  | .privateConstant => .unusedPrivateModuleConstant name location
  | .privateTypeConstructor _ => .unusedConstructor name false location
  | .privateFunction => .unusedPrivateFunction name location
  | .privateType => .unusedType name false location
  | .importedValue => .unusedImportedValue name location
  | .variableKind => .unusedVariable name location

/-- An entry of an `entity_usages` scope: name, kind, definition span
and the `used?` flag. -/
structure UsageEntry : Type where
  name : String
  kind : EntityKind
  location : Nat
  used : Bool
deriving DecidableEq

/-- `Environment::handle_unused`: filter the entries whose `used?` flag
is false and push the warning the kind maps to (the `HashMap` iteration
order is fixed by the entry list of the model). -/
def handle_unused (unused : List UsageEntry) : List Warning :=
  (unused.filter fun e => ! e.used).map fun e => warningFor e.name e.kind e.location

/-- The `Environment` fields that `close_scope` touches, with the scope
map abstracted to a type parameter. -/
structure Environment (σ : Type) : Type where
  entityUsages : List (List UsageEntry)
  scope : σ
  warnings : List Warning

/-- `ScopeResetData`: the snapshot that `open_new_scope` took. -/
structure ScopeResetData (σ : Type) : Type where
  localValues : σ

/-- `Environment::close_scope`: pop the top usage scope (`Vec::pop`
takes the last element; `none` models the `.expect` panic on an empty
stack), emit the unused warnings, and restore the snapshot scope. -/
def close_scope {σ : Type} (env : Environment σ) (data : ScopeResetData σ) :
    Option (Environment σ) :=
  match env.entityUsages.getLast? with
  | none => none
  | some top =>
    some { entityUsages := env.entityUsages.dropLast,
           scope := data.localValues,
           warnings := env.warnings ++ handle_unused top }

/-- Claim C6 counterexample: a closed scope holding one unused
`ImportedType` entry emits an `UnusedType` warning, although the claim
says entries of kind `ImportedType`, `ImportedTypeAndConstructor` and
`PrivateType` are ignored.  All three kinds emit. -/
theorem C6_close_scope_counterexample :
    close_scope (σ := Unit)
      ⟨[[⟨"T", .importedType, 7, false⟩]], (), []⟩ ⟨()⟩ =
      some ⟨[], (), [.unusedType "T" true 7]⟩ ∧
    close_scope (σ := Unit)
      ⟨[[⟨"U", .importedTypeAndConstructor, 8, false⟩]], (), []⟩ ⟨()⟩ =
      some ⟨[], (), [.unusedType "U" true 8]⟩ ∧
    close_scope (σ := Unit)
      ⟨[[⟨"V", .privateType, 9, false⟩]], (), []⟩ ⟨()⟩ =
      some ⟨[], (), [.unusedType "V" false 9]⟩ := by
  refine ⟨rfl, rfl, rfl⟩

/-- Claim C6, amended: for every scope closed by `close_scope`, an
unused-binding warning is appended for each entity-usage entry of the
closed (top) scope whose `used?` flag is false — for entries of every
kind, including `ImportedType`, `ImportedTypeAndConstructor` and
`PrivateType` (which emit `UnusedType` warnings); used entries emit
nothing, and the scope map is restored from the snapshot. -/
theorem C6_close_scope_amended {σ : Type} (env : Environment σ)
    (data : ScopeResetData σ) (top : List UsageEntry)
    (htop : env.entityUsages.getLast? = some top) :
    ∃ envF, close_scope env data = some envF ∧
      envF.warnings = env.warnings ++
        ((top.filter fun e => ! e.used).map fun e =>
          warningFor e.name e.kind e.location) ∧
      (∀ e ∈ top, e.used = false →
        warningFor e.name e.kind e.location ∈ envF.warnings) ∧
      envF.warnings.length = env.warnings.length +
        (top.filter fun e => ! e.used).length ∧
      envF.scope = data.localValues ∧
      envF.entityUsages = env.entityUsages.dropLast := by
  refine ⟨_, by rw [close_scope, htop], rfl, ?_, by simp [handle_unused], rfl, rfl⟩
  intro e he hu
  simp only [handle_unused, List.mem_append, List.mem_map]
  exact Or.inr ⟨e, List.mem_filter.mpr ⟨he, by simp [hu]⟩, rfl⟩

/-- Concrete instance of the amended Claim C6: closing a scope with one
used and one unused variable entry emits exactly the warning for the
unused one. -/
theorem C6_close_scope_amended_witness :
    ∃ envF, close_scope (σ := Unit)
        ⟨[[⟨"a", .variableKind, 1, true⟩, ⟨"b", .variableKind, 2, false⟩]], (), []⟩
        ⟨()⟩ = some envF ∧
      envF.warnings = [] ++
        (([⟨"a", .variableKind, 1, true⟩,
           (⟨"b", .variableKind, 2, false⟩ : UsageEntry)].filter fun e => ! e.used).map
          fun e => warningFor e.name e.kind e.location) ∧
      (∀ e ∈ [⟨"a", .variableKind, 1, true⟩,
              (⟨"b", .variableKind, 2, false⟩ : UsageEntry)], e.used = false →
        warningFor e.name e.kind e.location ∈ envF.warnings) ∧
      envF.warnings.length = ([] : List Warning).length +
        (([⟨"a", .variableKind, 1, true⟩,
           (⟨"b", .variableKind, 2, false⟩ : UsageEntry)].filter fun e => ! e.used).length) ∧
      envF.scope = () ∧
      envF.entityUsages = [[⟨"a", .variableKind, 1, true⟩,
        ⟨"b", .variableKind, 2, false⟩]].dropLast :=
  C6_close_scope_amended
    ⟨[[⟨"a", .variableKind, 1, true⟩, ⟨"b", .variableKind, 2, false⟩]], (), []⟩
    ⟨()⟩
    [⟨"a", .variableKind, 1, true⟩, ⟨"b", .variableKind, 2, false⟩]
    (by rfl)

end NanoLang

namespace Interner

/-- `untyped_plutus_core/src/ast.rs::Name`: text plus unique (the
`Unique` counter starts at 0 and only increments, so it is a natural
number here). -/
structure Name : Type where
  text : String
  unique : Nat
deriving DecidableEq

/-- `Term<Name>`, the named term form the interner walks. -/
inductive NTerm : Type
  | var (name : Name)
  | delay (t : NTerm)
  | lambda (parameterName : Name) (body : NTerm)
  | app (function argument : NTerm)
  | constant (c : Nat)
  | force (t : NTerm)
  | error
  | builtin (f : Nat)
deriving DecidableEq

/-- `Program<Name>`. -/
structure NProgram : Type where
  version : Nat × Nat × Nat
  term : NTerm
deriving DecidableEq

/-- `parser/interner.rs::Interner`: the text-to-unique table and the
next unique (the `HashMap` is an association list here). -/
structure InternSt : Type where
  identifiers : List (String × Nat)
  current : Nat
deriving DecidableEq

/-- `self.identifiers.get(text)`. -/
def lookupId (m : List (String × Nat)) (text : String) : Option Nat :=
  (m.find? fun kv => kv.1 == text).map fun kv => kv.2

/-- `Interner::intern`: return the existing unique for the text, or
allocate `current`, record it and increment. -/
def intern (st : InternSt) (text : String) : Nat × InternSt :=
  match lookupId st.identifiers text with
  | some u => (u, st)
  | none =>
    (st.current,
     { identifiers := (text, st.current) :: st.identifiers,
       current := st.current + 1 })

/-- `Interner::term`: rewrite the unique of every `Var` and `Lambda`
name via `intern`.  The source's `match` handles only the first three
variants; the remaining term forms fall outside it, modelled as
`none`. -/
def internTerm (st : InternSt) : NTerm → Option (NTerm × InternSt)
  | .var n =>
    let r := intern st n.text
    some (.var ⟨n.text, r.1⟩, r.2)
  | .delay t =>
    (internTerm st t).map fun p => (.delay p.1, p.2)
  | .lambda pn body =>
    let r := intern st pn.text
    (internTerm r.2 body).map fun p => (.lambda ⟨pn.text, r.1⟩ p.1, p.2)
  | .app _ _ => none
  | .constant _ => none
  | .force _ => none
  | .error => none
  | .builtin _ => none

/-- `Interner::new`. -/
def newInterner : InternSt := ⟨[], 0⟩

/-- `Interner::program` run from a fresh interner. -/
def internProgram (p : NProgram) : Option NProgram :=
  (internTerm newInterner p.term).map fun r => { p with term := r.1 }

/-- The binder occurrences of a term, tagged with their tree path
(0 = under a delay body, 1 = under a lambda body): two entries with
different paths are distinct binders. -/
def binders : NTerm → List (List Nat × Name)
  | .var _ => []
  | .delay t => (binders t).map fun pn => (0 :: pn.1, pn.2)
  | .lambda pn body => ([], pn) :: (binders body).map fun qn => (1 :: qn.1, qn.2)
  | _ => []

/-- Every `Var` or `Lambda` name occurring in a term. -/
def termNames : NTerm → List Name
  | .var n => [n]
  | .delay t => termNames t
  | .lambda pn body => pn :: termNames body
  | _ => []

/-- The interner-table invariant: distinct texts never map to the same
unique (and conversely), and every allocated unique is below
`current`. -/
def InvSt (st : InternSt) : Prop :=
  (∀ t1 u1 t2 u2, (t1, u1) ∈ st.identifiers → (t2, u2) ∈ st.identifiers →
    (u1 = u2 ↔ t1 = t2)) ∧
  (∀ t u, (t, u) ∈ st.identifiers → u < st.current)

theorem lookupId_none (m : List (String × Nat)) (text : String)
    (h : lookupId m text = none) : ∀ t u, (t, u) ∈ m → t ≠ text := by
  intro t u hm
  rw [lookupId] at h
  rcases ho : m.find? fun kv => kv.1 == text with _ | kv
  · have := List.find?_eq_none.mp ho (t, u) hm
    simpa using this
  · rw [ho] at h
    simp at h

theorem lookupId_some (m : List (String × Nat)) (text : String) (u : Nat)
    (h : lookupId m text = some u) : (text, u) ∈ m := by
  rw [lookupId] at h
  rcases ho : m.find? fun kv => kv.1 == text with _ | kv
  · rw [ho] at h; simp at h
  · rw [ho] at h
    simp only [Option.map_some', Option.some.injEq] at h
    have hmem := List.mem_of_find?_eq_some ho
    have hpred := List.find?_some ho
    have htext : kv.1 = text := by simpa using hpred
    have hkv : kv = (text, u) := by
      cases kv; simp_all
    rw [← hkv]
    exact hmem

theorem intern_spec (st : InternSt) (text : String) (hInv : InvSt st) :
    ∀ u st2, intern st text = (u, st2) →
      InvSt st2 ∧ (text, u) ∈ st2.identifiers ∧
      (∀ e ∈ st.identifiers, e ∈ st2.identifiers) := by
  intro u st2 h
  rw [intern] at h
  rcases hl : lookupId st.identifiers text with _ | u0 <;> rw [hl] at h
  · have hfresh := lookupId_none st.identifiers text hl
    simp only [Prod.mk.injEq] at h
    obtain ⟨rfl, rfl⟩ := h
    refine ⟨⟨?_, ?_⟩, by simp, by simp +contextual⟩
    · intro t1 u1 t2 u2 h1 h2
      simp only [List.mem_cons, Prod.mk.injEq] at h1 h2
      rcases h1 with ⟨rfl, rfl⟩ | h1 <;> rcases h2 with ⟨rfl, rfl⟩ | h2
      · simp
      · have hne := hfresh t2 u2 h2
        have hlt := hInv.2 t2 u2 h2
        constructor
        · intro hh; omega
        · intro hh; exact absurd hh.symm hne
      · have hne := hfresh t1 u1 h1
        have hlt := hInv.2 t1 u1 h1
        constructor
        · intro hh; omega
        · intro hh; exact absurd hh hne
      · exact hInv.1 t1 u1 t2 u2 h1 h2
    · intro t u h
      simp only [List.mem_cons, Prod.mk.injEq] at h
      rcases h with ⟨rfl, rfl⟩ | h
      · simp
      · have := hInv.2 t u h
        simp only []
        omega
  · simp only [Prod.mk.injEq] at h
    obtain ⟨rfl, rfl⟩ := h
    exact ⟨hInv, lookupId_some st.identifiers text u0 hl, fun e he => he⟩

theorem internTerm_spec :
    ∀ (t : NTerm) (st : InternSt), InvSt st →
      ∀ t2 st2, internTerm st t = some (t2, st2) →
        InvSt st2 ∧ (∀ e ∈ st.identifiers, e ∈ st2.identifiers) ∧
        (∀ n ∈ termNames t2, (n.text, n.unique) ∈ st2.identifiers) := by
  intro t
  induction t with
  | var n =>
    intro st hInv t2 st2 h
    simp only [internTerm, Option.some.injEq, Prod.mk.injEq] at h
    obtain ⟨h1, h2⟩ := h
    obtain ⟨hI, hmem, hgrow⟩ := intern_spec st n.text hInv _ _ rfl
    subst h2
    refine ⟨hI, hgrow, ?_⟩
    intro m hm
    rw [← h1] at hm
    simp only [termNames, List.mem_singleton] at hm
    subst hm
    exact hmem
  | delay t ih =>
    intro st hInv t2 st2 h
    simp only [internTerm] at h
    rcases hin : internTerm st t with _ | p <;> rw [hin] at h
    · simp at h
    · simp only [Option.map_some', Option.some.injEq, Prod.mk.injEq] at h
      obtain ⟨h1, h2⟩ := h
      obtain ⟨hI, hgrow, hnames⟩ := ih st hInv p.1 p.2 (by rw [hin])
      subst h2
      refine ⟨hI, hgrow, ?_⟩
      intro m hm
      rw [← h1] at hm
      simp only [termNames] at hm
      exact hnames m hm
  | lambda pn body ih =>
    intro st hInv t2 st2 h
    obtain ⟨hI1, hmem1, hgrow1⟩ := intern_spec st pn.text hInv _ _ rfl
    simp only [internTerm] at h
    rcases hin : internTerm (intern st pn.text).2 body with _ | p <;> rw [hin] at h
    · simp at h
    · simp only [Option.map_some', Option.some.injEq, Prod.mk.injEq] at h
      obtain ⟨h1, h2⟩ := h
      obtain ⟨hI2, hgrow2, hnames2⟩ :=
        ih (intern st pn.text).2 hI1 p.1 p.2 (by rw [hin])
      subst h2
      refine ⟨hI2, fun e he => hgrow2 e (hgrow1 e he), ?_⟩
      intro m hm
      rw [← h1] at hm
      simp only [termNames, List.mem_cons] at hm
      rcases hm with rfl | hm
      · exact hgrow2 _ hmem1
      · exact hnames2 m hm
  | app f a ihf iha =>
    intro st hInv t2 st2 h
    simp only [internTerm] at h
    exact Option.noConfusion h
  | constant c =>
    intro st hInv t2 st2 h
    simp only [internTerm] at h
    exact Option.noConfusion h
  | force t ih =>
    intro st hInv t2 st2 h
    simp only [internTerm] at h
    exact Option.noConfusion h
  | error =>
    intro st hInv t2 st2 h
    simp only [internTerm] at h
    exact Option.noConfusion h
  | builtin f =>
    intro st hInv t2 st2 h
    simp only [internTerm] at h
    exact Option.noConfusion h

/-- Claim C8 counterexample: interning
`(lam x (lam x x))` — two distinct `Lambda` binders (tree paths `[]`
and `[1]`) that both carry the text `x` — assigns both binders the same
unique `0`, so two `Name`s with identical unique need not be the same
binder. -/
theorem C8_interner_counterexample :
    internProgram ⟨(1, 0, 0), .lambda ⟨"x", 99⟩ (.lambda ⟨"x", 98⟩ (.var ⟨"x", 97⟩))⟩ =
      some ⟨(1, 0, 0), .lambda ⟨"x", 0⟩ (.lambda ⟨"x", 0⟩ (.var ⟨"x", 0⟩))⟩ ∧
    binders (.lambda ⟨"x", 0⟩ (.lambda ⟨"x", 0⟩ (.var ⟨"x", 0⟩))) =
      [([], ⟨"x", 0⟩), ([1], ⟨"x", 0⟩)] := by
  constructor <;> rfl

/-- Claim C8, amended: after `Interner::program` has assigned uniques to
every `Var` and `Lambda` name of a `Program<Name>` (starting from a
fresh interner), two `Name`s of the result carry identical uniques if
and only if they carry identical text: uniques identify identifier
texts, not binders, and distinct binders that share a text share a
unique. -/
theorem C8_interner_amended (p p2 : NProgram)
    (h : internProgram p = some p2) :
    ∀ n1 ∈ termNames p2.term, ∀ n2 ∈ termNames p2.term,
      (n1.unique = n2.unique ↔ n1.text = n2.text) := by
  intro n1 h1 n2 h2
  rw [internProgram] at h
  rcases hin : internTerm newInterner p.term with _ | r <;> rw [hin] at h
  · simp at h
  · simp only [Option.map_some', Option.some.injEq] at h
    have hInv0 : InvSt newInterner := by
      constructor
      · intro t1 u1 t2 u2 hm; simp [newInterner] at hm
      · intro t u hm; simp [newInterner] at hm
    obtain ⟨hI, _, hnames⟩ :=
      internTerm_spec p.term newInterner hInv0 r.1 r.2 (by rw [hin])
    have hterm : p2.term = r.1 := by rw [← h]
    rw [hterm] at h1 h2
    exact hI.1 n1.text n1.unique n2.text n2.unique (hnames n1 h1) (hnames n2 h2)

/-- Concrete instance of the amended Claim C8 at the counterexample
program: the outer binder and the variable occurrence share text `x`,
hence share unique `0`. -/
theorem C8_interner_amended_witness :
    ((⟨"x", 0⟩ : Name).unique = (⟨"x", 0⟩ : Name).unique ↔
      (⟨"x", 0⟩ : Name).text = (⟨"x", 0⟩ : Name).text) :=
  C8_interner_amended
    ⟨(1, 0, 0), .lambda ⟨"x", 99⟩ (.lambda ⟨"x", 98⟩ (.var ⟨"x", 97⟩))⟩
    ⟨(1, 0, 0), .lambda ⟨"x", 0⟩ (.lambda ⟨"x", 0⟩ (.var ⟨"x", 0⟩))⟩
    (by rfl)
    ⟨"x", 0⟩ (by simp [termNames])
    ⟨"x", 0⟩ (by simp [termNames])

end Interner

namespace Fields

/-- Modelled from the spec: `ast.rs::CallArg` (outside `src/`) as
`tipo/fields.rs` consumes it — an optional label, a source span
(a number here) and a payload. -/
structure CallArg (α : Type) : Type where
  label : Option String
  location : Nat
  value : α
deriving DecidableEq

/-- `tipo/fields.rs::FieldMap`; the label map is an association list
`label → (index, span)`. -/
structure FieldMap : Type where
  arity : Nat
  fields : List (String × Nat × Nat)
  isFunction : Bool

/-- `self.fields.get(label)`. -/
def fieldsGet (fm : FieldMap) (label : String) : Option (Nat × Nat) :=
  (fm.fields.find? fun kv => kv.1 == label).map fun kv => kv.2

/-- `self.fields.keys()`. -/
def fieldsKeys (fm : FieldMap) : List String := fm.fields.map fun kv => kv.1

/-- Insertion sort standing in for `itertools::sorted` on label lists. -/
def insertSorted (x : String) : List String → List String
  | [] => [x]
  | y :: ys => if x ≤ y then x :: y :: ys else y :: insertSorted x ys

def sortStrings : List String → List String
  | [] => []
  | x :: xs => insertSorted x (sortStrings xs)

/-- The `tipo/error.rs::Error` variants that `FieldMap::reorder` and
`incorrect_arity_labels` produce. -/
inductive FieldsError : Type
  | incorrectFieldsArity (labels : List String) (location : Nat)
      (expected : Nat) (given : Nat)
  | positionalArgumentAfterLabeled (location : Nat) (labeledArgLocation : Nat)
  | duplicateArgument (location : Nat) (duplicateLocation : Nat) (label : String)
  | unknownLabels (valid : List String) (unknown : List Nat) (supplied : List String)
deriving DecidableEq

/-- `FieldMap::incorrect_arity_labels`: the field labels not supplied by
any argument, sorted. -/
def incorrect_arity_labels {α : Type} (fm : FieldMap) (args : List (CallArg α)) :
    List String :=
  sortStrings ((fieldsKeys fm).filter fun f =>
    ! args.any fun a => a.label == some f)

/-- The positional-after-labelled pre-scan of `reorder`, tracking
`last_labeled_arguments_given`; returns the offending pair of spans. -/
def positionalAfterLabeled {α : Type} :
    Option (CallArg α) → List (CallArg α) → Option (Nat × Nat)
  | _, [] => none
  | lastLab, a :: rest =>
    match a.label with
    | some _ => positionalAfterLabeled (some a) rest
    | none =>
      match lastLab with
      | some l => some (a.location, l.location)
      | none => positionalAfterLabeled lastLab rest

/-- `args.swap(i, j)`: exchange two positions; `none` is the
out-of-bounds panic. -/
def swapList {α : Type} (l : List α) (i j : Nat) : Option (List α) :=
  match l[i]?, l[j]? with
  | some a, some b => some ((l.set i b).set j a)
  | _, _ => none

theorem swapList_length {α : Type} (l l2 : List α) (i j : Nat)
    (h : swapList l i j = some l2) : l2.length = l.length := by
  rw [swapList] at h
  rcases hi : l[i]? with _ | a <;> rw [hi] at h <;>
    rcases hj : l[j]? with _ | b <;> try rw [hj] at h
  all_goals simp_all
  rw [← h]
  simp

/-- Field labels of `fm` not yet seen: the termination measure of the
reordering sweep. -/
def missingCount (fm : FieldMap) (seen : List String) : Nat :=
  ((fieldsKeys fm).dedup.filter fun k => ! decide (k ∈ seen)).length

theorem length_filter_le_of_imp {β : Type} (xs : List β) (p q : β → Bool)
    (h : ∀ x, q x = true → p x = true) :
    (xs.filter q).length ≤ (xs.filter p).length := by
  induction xs with
  | nil => simp
  | cons x xs ih =>
    rcases hq : q x with _ | _
    · rcases hp : p x with _ | _ <;> simp [List.filter_cons, hq, hp] <;> omega
    · have hp := h x hq
      simp [List.filter_cons, hq, hp]
      omega

theorem length_filter_lt_of_imp {β : Type} (xs : List β) (p q : β → Bool)
    (h : ∀ x, q x = true → p x = true) :
    ∀ a, a ∈ xs → p a = true → q a = false →
      (xs.filter q).length < (xs.filter p).length := by
  induction xs with
  | nil => intro a ha _ _; simp at ha
  | cons x xs ih =>
    intro a ha hpa hqa
    rcases List.mem_cons.mp ha with rfl | hmem
    · have hmono := length_filter_le_of_imp xs p q h
      simp [List.filter_cons, hpa, hqa]
      omega
    · have hrec := ih a hmem hpa hqa
      cases hq : q x with
      | true =>
        have hp := h x hq
        simp [List.filter_cons, hq, hp]
        omega
      | false =>
        cases hp : p x with
        | true => simp [List.filter_cons, hq, hp]; omega
        | false => simp [List.filter_cons, hq, hp]; omega

theorem missingCount_cons_le (fm : FieldMap) (x : String) (seen : List String) :
    missingCount fm (x :: seen) ≤ missingCount fm seen := by
  apply length_filter_le_of_imp
  intro k hk
  simp only [Bool.not_eq_eq_eq_not, Bool.not_true, decide_eq_false_iff_not,
    List.mem_cons, not_or] at hk ⊢
  exact hk.2

theorem fieldsGet_mem_keys (fm : FieldMap) (l : String) (pr : Nat × Nat)
    (h : fieldsGet fm l = some pr) : l ∈ fieldsKeys fm := by
  rw [fieldsGet] at h
  rcases ho : fm.fields.find? fun kv => kv.1 == l with _ | kv
  · rw [ho] at h; simp at h
  · have hmem := List.mem_of_find?_eq_some ho
    have hpred := List.find?_some ho
    have htext : kv.1 = l := by simpa using hpred
    rw [fieldsKeys]
    exact List.mem_map.mpr ⟨kv, hmem, htext⟩

theorem missingCount_cons_lt (fm : FieldMap) (x : String) (seen : List String)
    (hx : x ∈ fieldsKeys fm) (hns : x ∉ seen) :
    missingCount fm (x :: seen) < missingCount fm seen := by
  refine length_filter_lt_of_imp _ _ _ ?_ x (List.mem_dedup.mpr hx)
    (by simp [hns]) (by simp)
  intro k hk
  simp only [Bool.not_eq_eq_eq_not, Bool.not_true, decide_eq_false_iff_not,
    List.mem_cons, not_or] at hk ⊢
  exact hk.2

/-- The `while i < args.len()` sweep of `tipo/fields.rs::FieldMap::reorder`,
carrying the argument vector (mutated by `swap`), the index, the
`seen_labels` set and the `unknown_labels` list.  The result pairs the
final argument vector with `Ok`/`Err`; `none` is an out-of-bounds
`swap` panic. -/
def reorderLoop {α : Type} (fm : FieldMap) (args : List (CallArg α)) (i : Nat)
    (seen : List String) (unknown : List Nat) :
    Option (List (CallArg α) × Except FieldsError Unit) :=
  if h : i < args.length then
    match args[i].label with
    | none => reorderLoop fm args (i + 1) seen unknown
    | some label =>
      match hg : fieldsGet fm label with
      | none => reorderLoop fm args (i + 1) seen (unknown ++ [args[i].location])
      | some (position, duplicateLocation) =>
        if hpos : position = i then
          reorderLoop fm args (i + 1) (label :: seen) unknown
        else if hseen : label ∈ seen then
          some (args, .error
            (.duplicateArgument args[i].location duplicateLocation label))
        else
          match hs : swapList args position i with
          | none => none
          | some args2 => reorderLoop fm args2 i (label :: seen) unknown
  else
    if unknown = [] then some (args, .ok ())
    else some (args, .error
      (.unknownLabels (sortStrings (fieldsKeys fm)) unknown seen))
termination_by (args.length - i) + missingCount fm seen
decreasing_by
  · omega
  · omega
  · have hle := missingCount_cons_le fm label seen
    omega
  · have hlen2 := swapList_length args args2 position i hs
    have hlt := missingCount_cons_lt fm label seen
      (fieldsGet_mem_keys fm label _ hg) hseen
    omega

/-- `FieldMap::reorder`: arity check, positional-after-labelled check,
then the sweep from index 0 with empty `seen`/`unknown`. -/
def reorder {α : Type} (fm : FieldMap) (args : List (CallArg α)) (location : Nat) :
    Option (List (CallArg α) × Except FieldsError Unit) :=
  if fm.arity ≠ args.length then
    some (args, .error (.incorrectFieldsArity (incorrect_arity_labels fm args)
      location fm.arity args.length))
  else
    match positionalAfterLabeled none args with
    | some (loc, labLoc) =>
      some (args, .error (.positionalArgumentAfterLabeled loc labLoc))
    | none => reorderLoop fm args 0 [] []

end Fields

namespace Fields

theorem swapList_eq {α : Type} (l : List α) (i j : Nat)
    (hi : i < l.length) (hj : j < l.length) :
    swapList l i j = some ((l.set i l[j]).set j l[i]) := by
  rw [swapList, List.getElem?_eq_getElem hi, List.getElem?_eq_getElem hj]

theorem getElem_cons_set_perm {α : Type} :
    ∀ (xs : List α) (m : Nat) (x : α) (hm : m < xs.length),
      (xs[m] :: xs.set m x).Perm (x :: xs) := by
  intro xs
  induction xs with
  | nil => intro m x hm; simp at hm
  | cons y ys ih =>
    intro m x hm
    cases m with
    | zero =>
      simp only [List.getElem_cons_zero, List.set_cons_zero]
      exact List.Perm.swap x y ys
    | succ m =>
      have hm2 : m < ys.length := by simpa using hm
      simp only [List.getElem_cons_succ, List.set_cons_succ]
      exact (List.Perm.swap y (ys[m]) (ys.set m x)).trans
        (((ih m x hm2).cons y).trans (List.Perm.swap x y ys))

theorem swap_set_perm {α : Type} :
    ∀ (l : List α) (i j : Nat) (hi : i < l.length) (hj : j < l.length),
      ((l.set i l[j]).set j l[i]).Perm l := by
  intro l
  induction l with
  | nil => intro i j hi _; simp at hi
  | cons x xs ih =>
    intro i j hi hj
    cases i with
    | zero =>
      cases j with
      | zero => simp
      | succ m =>
        have hm : m < xs.length := by simpa using hj
        simp only [List.getElem_cons_zero, List.getElem_cons_succ,
          List.set_cons_zero, List.set_cons_succ]
        exact getElem_cons_set_perm xs m x hm
    | succ k =>
      cases j with
      | zero =>
        have hk : k < xs.length := by simpa using hi
        simp only [List.getElem_cons_zero, List.getElem_cons_succ,
          List.set_cons_succ, List.set_cons_zero]
        exact getElem_cons_set_perm xs k x hk
      | succ m =>
        have hk : k < xs.length := by simpa using hi
        have hm : m < xs.length := by simpa using hj
        simp only [List.getElem_cons_succ, List.set_cons_succ]
        exact (ih k m hk hm).cons x

theorem reorderLoop_none {α : Type} (fm : FieldMap) (args : List (CallArg α))
    (i : Nat) (seen : List String) (unknown : List Nat)
    (h : i < args.length) (hl : args[i].label = none) :
    reorderLoop fm args i seen unknown = reorderLoop fm args (i + 1) seen unknown := by
  rw [reorderLoop, dif_pos h]
  split
  · rfl
  · next lbl heq => rw [hl] at heq; cases heq

theorem reorderLoop_unknown {α : Type} (fm : FieldMap) (args : List (CallArg α))
    (i : Nat) (seen : List String) (unknown : List Nat) (label : String)
    (h : i < args.length) (hl : args[i].label = some label)
    (hg : fieldsGet fm label = none) :
    reorderLoop fm args i seen unknown =
      reorderLoop fm args (i + 1) seen (unknown ++ [args[i].location]) := by
  rw [reorderLoop, dif_pos h]
  split
  · next heq => rw [hl] at heq; cases heq
  · next lbl heq =>
    rw [hl] at heq
    injection heq with heq2
    subst heq2
    split
    · rfl
    · next position dup heq3 => rw [hg] at heq3; cases heq3

theorem reorderLoop_posEq {α : Type} (fm : FieldMap) (args : List (CallArg α))
    (i : Nat) (seen : List String) (unknown : List Nat) (label : String)
    (position dup : Nat) (h : i < args.length) (hl : args[i].label = some label)
    (hg : fieldsGet fm label = some (position, dup)) (hpos : position = i) :
    reorderLoop fm args i seen unknown =
      reorderLoop fm args (i + 1) (label :: seen) unknown := by
  rw [reorderLoop, dif_pos h]
  split
  · next heq => rw [hl] at heq; cases heq
  · next lbl heq =>
    rw [hl] at heq
    injection heq with heq2
    subst heq2
    split
    · next heq3 => rw [hg] at heq3; cases heq3
    · next position2 dup2 heq3 =>
      rw [hg] at heq3
      injection heq3 with heq4
      injection heq4 with h5 h6
      subst h5; subst h6
      rw [dif_pos hpos]

theorem reorderLoop_dup {α : Type} (fm : FieldMap) (args : List (CallArg α))
    (i : Nat) (seen : List String) (unknown : List Nat) (label : String)
    (position dup : Nat) (h : i < args.length) (hl : args[i].label = some label)
    (hg : fieldsGet fm label = some (position, dup)) (hpos : ¬ position = i)
    (hseen : label ∈ seen) :
    reorderLoop fm args i seen unknown =
      some (args, .error (.duplicateArgument args[i].location dup label)) := by
  rw [reorderLoop, dif_pos h]
  split
  · next heq => rw [hl] at heq; cases heq
  · next lbl heq =>
    rw [hl] at heq
    injection heq with heq2
    subst heq2
    split
    · next heq3 => rw [hg] at heq3; cases heq3
    · next position2 dup2 heq3 =>
      rw [hg] at heq3
      injection heq3 with heq4
      injection heq4 with h5 h6
      subst h5; subst h6
      rw [dif_neg hpos, dif_pos hseen]

theorem reorderLoop_swap {α : Type} (fm : FieldMap) (args args2 : List (CallArg α))
    (i : Nat) (seen : List String) (unknown : List Nat) (label : String)
    (position dup : Nat) (h : i < args.length) (hl : args[i].label = some label)
    (hg : fieldsGet fm label = some (position, dup)) (hpos : ¬ position = i)
    (hseen : ¬ label ∈ seen) (hs : swapList args position i = some args2) :
    reorderLoop fm args i seen unknown =
      reorderLoop fm args2 i (label :: seen) unknown := by
  rw [reorderLoop, dif_pos h]
  split
  · next heq => rw [hl] at heq; cases heq
  · next lbl heq =>
    rw [hl] at heq
    injection heq with heq2
    subst heq2
    split
    · next heq3 => rw [hg] at heq3; cases heq3
    · next position2 dup2 heq3 =>
      rw [hg] at heq3
      injection heq3 with heq4
      injection heq4 with h5 h6
      subst h5; subst h6
      rw [dif_neg hpos, dif_neg hseen]
      split
      · next heq5 => rw [hs] at heq5; cases heq5
      · next args3 heq5 =>
        rw [hs] at heq5
        injection heq5 with heq6
        subst heq6
        rfl

theorem reorderLoop_exit {α : Type} (fm : FieldMap) (args : List (CallArg α))
    (i : Nat) (seen : List String) (unknown : List Nat)
    (h : ¬ i < args.length) :
    reorderLoop fm args i seen unknown =
      if unknown = [] then some (args, .ok ())
      else some (args, .error
        (.unknownLabels (sortStrings (fieldsKeys fm)) unknown seen)) := by
  rw [reorderLoop, dif_neg h]

/-- Every argument before index `k` that carries a label of the field
map sits at the position the field map assigns to that label. -/
def Placed {α : Type} (fm : FieldMap) (args : List (CallArg α)) (k : Nat) : Prop :=
  ∀ j (hj : j < args.length), j < k →
    ∀ l, (args[j]).label = some l →
      ∀ p s, fieldsGet fm l = some (p, s) → p = j

theorem reorderLoop_spec {α : Type} (fm : FieldMap)
    (hwf : ∀ l p s, fieldsGet fm l = some (p, s) → p < fm.arity) :
    ∀ (args : List (CallArg α)) (i : Nat) (seen : List String) (unknown : List Nat),
      args.length = fm.arity → Placed fm args i →
      ∃ args2 res, reorderLoop fm args i seen unknown = some (args2, res) ∧
        args2.Perm args ∧ (res = Except.ok () → Placed fm args2 fm.arity) := by
  intro args i seen unknown
  induction args, i, seen, unknown using reorderLoop.induct fm with
  | case1 args i seen unknown h hl ih =>
    intro hlen hInv
    have hInv2 : Placed fm args (i + 1) := by
      intro j hj hji l hlbl p s hg2
      rcases Nat.lt_succ_iff_lt_or_eq.mp hji with hj2 | rfl
      · exact hInv j hj hj2 l hlbl p s hg2
      · rw [hl] at hlbl; cases hlbl
    obtain ⟨args2, res, hrun, hperm, hok⟩ := ih hlen hInv2
    exact ⟨args2, res, (reorderLoop_none fm args i seen unknown h hl).trans hrun,
      hperm, hok⟩
  | case2 args i seen unknown h label hl hg ih =>
    intro hlen hInv
    have hInv2 : Placed fm args (i + 1) := by
      intro j hj hji l hlbl p s hg2
      rcases Nat.lt_succ_iff_lt_or_eq.mp hji with hj2 | rfl
      · exact hInv j hj hj2 l hlbl p s hg2
      · rw [hl] at hlbl
        injection hlbl with hlbl2
        subst hlbl2
        rw [hg] at hg2; cases hg2
    obtain ⟨args2, res, hrun, hperm, hok⟩ := ih hlen hInv2
    exact ⟨args2, res,
      (reorderLoop_unknown fm args i seen unknown label h hl hg).trans hrun,
      hperm, hok⟩
  | case3 args seen unknown label i dup hg h hl ih =>
    intro hlen hInv
    have hInv2 : Placed fm args (i + 1) := by
      intro j hj hji l hlbl p s hg2
      rcases Nat.lt_succ_iff_lt_or_eq.mp hji with hj2 | rfl
      · exact hInv j hj hj2 l hlbl p s hg2
      · rw [hl] at hlbl
        injection hlbl with hlbl2
        subst hlbl2
        rw [hg] at hg2
        injection hg2 with hg3
        injection hg3 with h4 h5
        omega
    obtain ⟨args2, res, hrun, hperm, hok⟩ := ih hlen hInv2
    exact ⟨args2, res,
      (reorderLoop_posEq fm args i seen unknown label i dup h hl hg rfl).trans hrun,
      hperm, hok⟩
  | case4 args i seen unknown h label hl position dup hg hpos hseen =>
    intro hlen hInv
    refine ⟨args, _,
      reorderLoop_dup fm args i seen unknown label position dup h hl hg hpos hseen,
      List.Perm.refl args, fun hc => by cases hc⟩
  | case5 args i seen unknown h label hl position dup hg hpos hseen hs =>
    intro hlen hInv
    exfalso
    have hposlt : position < args.length := by
      have := hwf label position dup hg
      omega
    rw [swapList_eq args position i hposlt h] at hs
    cases hs
  | case6 args i seen unknown h label hl position dup hg hpos hseen args2 hs ih =>
    intro hlen hInv
    have hposlt : position < args.length := by
      have := hwf label position dup hg
      omega
    have hs2 := hs
    rw [swapList_eq args position i hposlt h] at hs2
    injection hs2 with hs3
    subst hs3
    have hlen2 : ((args.set position args[i]).set i args[position]).length = fm.arity := by
      simpa using hlen
    have hInv2 : Placed fm ((args.set position args[i]).set i args[position]) i := by
      intro j hj hji l hlbl p s hg2
      by_cases hjp : j = position
      · subst hjp
        have hne1 : (i : Nat) ≠ j := fun hc => hpos hc.symm
        simp only [List.getElem_set_ne hne1, List.getElem_set_self] at hlbl
        rw [hl] at hlbl
        injection hlbl with hlbl2
        subst hlbl2
        rw [hg] at hg2
        injection hg2 with hg3
        injection hg3 with h4 h5
        omega
      · have hjine : j ≠ i := by omega
        have hne1 : (i : Nat) ≠ j := fun hc => hjine hc.symm
        have hne2 : (position : Nat) ≠ j := fun hc => hjp hc.symm
        simp only [List.getElem_set_ne hne1, List.getElem_set_ne hne2] at hlbl
        exact hInv j (by simpa using hj) hji l hlbl p s hg2
    obtain ⟨args3, res, hrun, hperm, hok⟩ := ih hlen2 hInv2
    have hperm2 : ((args.set position args[i]).set i args[position]).Perm args :=
      swap_set_perm args position i hposlt h
    exact ⟨args3, res,
      (reorderLoop_swap fm args ((args.set position args[i]).set i args[position])
        i seen unknown label position dup h hl hg hpos hseen hs).trans hrun,
      hperm.trans hperm2, hok⟩
  | case7 args i seen h =>
    intro hlen hInv
    refine ⟨args, .ok (), by rw [reorderLoop_exit fm args i seen [] h]; simp,
      List.Perm.refl args, fun _ => ?_⟩
    intro j hj hji l hlbl p s hg2
    exact hInv j hj (by omega) l hlbl p s hg2
  | case8 args i seen unknown h hu =>
    intro hlen hInv
    refine ⟨args, _, by rw [reorderLoop_exit fm args i seen unknown h, if_neg hu],
      List.Perm.refl args, fun hc => by cases hc⟩

/-- Claim C9: for every argument vector whose length equals the field
map's arity (and a well-formed field map, whose positions are below the
arity), `FieldMap::reorder` returns without panicking, the resulting
vector is a permutation of the input — it only ever swaps two elements
in place — whether the result is `Ok` or an error; and on `Ok`, every
argument labelled with a label of the field map occupies exactly the
position the field map assigns to that label. -/
theorem C9_fieldmap_reorder {α : Type} (fm : FieldMap) (args : List (CallArg α))
    (location : Nat) (hlen : args.length = fm.arity)
    (hwf : ∀ l p s, fieldsGet fm l = some (p, s) → p < fm.arity) :
    ∃ args2 res, reorder fm args location = some (args2, res) ∧
      args2.Perm args ∧
      (res = Except.ok () → ∀ j (hj : j < args2.length),
        ∀ l, args2[j].label = some l →
          ∀ p s, fieldsGet fm l = some (p, s) → p = j) := by
  rw [reorder, if_neg (by omega)]
  cases hp : positionalAfterLabeled (α := α) none args with
  | some pr =>
    exact ⟨args, .error (.positionalArgumentAfterLabeled pr.1 pr.2),
      rfl, List.Perm.refl args, fun hc => by cases hc⟩
  | none =>
    obtain ⟨args2, res, hrun, hperm, hok⟩ :=
      reorderLoop_spec fm hwf args 0 [] [] hlen
        (by intro j hj hj0; exact absurd hj0 (Nat.not_lt_zero j))
    refine ⟨args2, res, hrun, hperm, ?_⟩
    intro hres j hj l hlbl p s hg
    have hlen2 : args2.length = fm.arity := hperm.length_eq.trans hlen
    exact hok hres j hj (by omega) l hlbl p s hg

/-- Concrete instance of Claim C9: a field map `{a ↦ 0}` of arity 2 and
arguments `[positional, a-labelled]`; `reorder` succeeds, permutes the
two arguments, and puts the `a`-labelled argument at position 0. -/
theorem C9_fieldmap_reorder_witness :
    ∃ (args2 : List (CallArg Nat)) (res : Except FieldsError Unit),
      reorder ⟨2, [("a", (0, 10))], true⟩
        [⟨none, 5, 0⟩, ⟨some "a", 6, 1⟩] 99 = some (args2, res) ∧
      args2.Perm [⟨none, 5, 0⟩, ⟨some "a", 6, 1⟩] ∧
      (res = Except.ok () → ∀ j (hj : j < args2.length),
        ∀ l, args2[j].label = some l →
          ∀ p s, fieldsGet ⟨2, [("a", (0, 10))], true⟩ l = some (p, s) → p = j) := by
  apply C9_fieldmap_reorder ⟨2, [("a", (0, 10))], true⟩
    [⟨none, 5, 0⟩, ⟨some "a", 6, 1⟩] 99 rfl
  intro l p s h
  by_cases he : ("a" : String) = l
  · subst he
    rw [show fieldsGet ⟨2, [("a", (0, 10))], true⟩ "a" = some (0, 10) from rfl] at h
    injection h with h2
    injection h2 with h3 h4
    show p < 2
    omega
  · have hb : (("a" : String) == l) = false := by
      simp [he]
    have : fieldsGet ⟨2, [("a", (0, 10))], true⟩ l = none := by
      rw [fieldsGet]
      simp [List.find?, hb]
    rw [this] at h
    cases h

end Fields

namespace Tx

/-- The `tx.rs::Error` outcomes `apply_params_to_script` can return: its
own `ApplyParamsError`, or (via `?`) the error of
`Program::<DeBruijn>::from_cbor`, modelled by a numeric code. -/
inductive TxError : Type
  | applyParamsError
  | fromCborError (code : Nat)
deriving DecidableEq

/-- `untyped_plutus_core/src/ast.rs::DeBruijn` (line 401): a wrapped
usize index. -/
structure DeBruijn : Type where
  index : Nat
deriving DecidableEq

/-- `untyped_plutus_core/src/ast.rs::Term<T>` (line 174) at
`T = DeBruijn`, the name type `apply_params_to_script` works with; the
`Constant` payload is the `Uplc.Constant` embedding of the same file.
Modelled from the spec: the `DefaultFunction` builtin enum lives outside
`src/`, so a builtin is its numeric tag. -/
inductive Term : Type
  | var (name : DeBruijn)
  | delay (t : Term)
  | lambda (parameterName : DeBruijn) (body : Term)
  | app (function argument : Term)
  | constant (c : Uplc.Constant)
  | force (t : Term)
  | error
  | builtin (f : Nat)

/-- `untyped_plutus_core/src/ast.rs::Program<T>` (line 43) at
`T = DeBruijn`: a version triple and a term. -/
structure Program : Type where
  version : Nat × Nat × Nat
  term : Term

/-- `untyped_plutus_core/src/ast.rs::Program::apply_data` (line 76):
wrap the program term in an application to the data constant, keeping
the version. -/
def Program.apply_data (p : Program) (plutus_data : Uplc.PlutusData) :
    Program :=
  { version := p.version,
    term := .app p.term (.constant (.data plutus_data)) }

/-- `tx.rs::apply_params_to_script` (lines 141-161).  The program type
and `Program::apply_data` are the embeddings above; modelled from the
spec are only the three codec functions, which live outside `src/`: the
`pallas` decoder `PlutusData::decode_fragment` (`none` = decode
failure) and the CBOR+Flat codec `Program::from_cbor` / `to_cbor`.  The
control flow is the source's: `decode_fragment(..).unwrap()` panics
(`none`) on malformed bytes, a non-`Array` decoding hits
`unreachable!()` (`none`), `from_cbor` errors propagate via `?`, every
parameter is applied in order with `apply_data` (a left fold), and a
`to_cbor` failure becomes `ApplyParamsError`. -/
def apply_params_to_script
    (decodeFragment : List Nat → Option Uplc.PlutusData)
    (fromCbor : List Nat → Except Nat Program)
    (toCbor : Program → Except Nat (List Nat))
    (params_bytes plutus_script_bytes : List Nat) :
    Option (Except TxError (List Nat)) :=
  match decodeFragment params_bytes with
  | none => none
  | some d =>
    match d with
    | .array ps =>
      match fromCbor plutus_script_bytes with
      | .error e => some (.error (.fromCborError e))
      | .ok program =>
        match toCbor (ps.foldl Program.apply_data program) with
        | .ok res => some (.ok res)
        | .error _ => some (.error .applyParamsError)
    | _ => none

/-- Claim C7 counterexample: malformed params bytes do not surface as
the `ApplyParamsError` error value — the `unwrap` aborts (`none`), and
so does a params decoding that is not an `Array` (`unreachable!`). -/
theorem C7_apply_params_counterexample :
    apply_params_to_script (fun _ => none)
      (fun _ => .ok ⟨(1, 0, 0), .error⟩) (fun _ => .ok []) [0] [1] =
      none ∧
    apply_params_to_script (fun _ => some (.bigInt (.int 0)))
      (fun _ => .ok ⟨(1, 0, 0), .error⟩) (fun _ => .ok []) [0] [1] =
      none :=
  ⟨rfl, rfl⟩

/-- Claim C7, amended: `apply_params_to_script` decodes the params and
the CBOR+Flat program, applies each provided `PlutusData` argument in
order via `Program::apply_data` (a left fold), and re-encodes the
result; re-encoding failures surface as the `ApplyParamsError` error
value, and script-decoding failures surface as the decode error — but
malformed params bytes (or a non-`Array` decoding) abort with a panic
rather than returning an error. -/
theorem C7_apply_params_amended
    (decodeFragment : List Nat → Option Uplc.PlutusData)
    (fromCbor : List Nat → Except Nat Program)
    (toCbor : Program → Except Nat (List Nat))
    (params_bytes plutus_script_bytes : List Nat) :
    (decodeFragment params_bytes = none →
      apply_params_to_script decodeFragment fromCbor toCbor
        params_bytes plutus_script_bytes = none) ∧
    (∀ ps, decodeFragment params_bytes = some (.array ps) →
      (∀ e, fromCbor plutus_script_bytes = .error e →
        apply_params_to_script decodeFragment fromCbor toCbor
          params_bytes plutus_script_bytes =
          some (.error (.fromCborError e))) ∧
      (∀ program, fromCbor plutus_script_bytes = .ok program →
        (∀ res, toCbor (ps.foldl Program.apply_data program) = .ok res →
          apply_params_to_script decodeFragment fromCbor toCbor
            params_bytes plutus_script_bytes = some (.ok res)) ∧
        (∀ e, toCbor (ps.foldl Program.apply_data program) = .error e →
          apply_params_to_script decodeFragment fromCbor toCbor
            params_bytes plutus_script_bytes =
            some (.error .applyParamsError)))) ∧
    (∀ d, decodeFragment params_bytes = some d → (∀ ps, d ≠ .array ps) →
      apply_params_to_script decodeFragment fromCbor toCbor
        params_bytes plutus_script_bytes = none) := by
  refine ⟨?_, ?_, ?_⟩
  · intro h
    rw [apply_params_to_script, h]
  · intro ps hps
    refine ⟨?_, ?_⟩
    · intro e he
      rw [apply_params_to_script, hps, he]
    · intro program hprog
      refine ⟨?_, ?_⟩
      · intro res hres
        rw [apply_params_to_script, hps, hprog]
        simp only []
        rw [hres]
      · intro e he
        rw [apply_params_to_script, hps, hprog]
        simp only []
        rw [he]
  · intro d hd hne
    rw [apply_params_to_script, hd]
    cases d with
    | array ps => exact absurd rfl (hne ps)
    | constr t a f => rfl
    | map prs => rfl
    | bigInt i => rfl
    | boundedBytes b => rfl

/-- Concrete instance of the amended Claim C7: one integer parameter is
wrapped around the program term by `apply_data` and the re-encoded
program is returned. -/
theorem C7_apply_params_amended_witness :
    ([Uplc.PlutusData.bigInt (.int 7)].foldl Program.apply_data
        ⟨(1, 0, 0), .error⟩ : Program) =
      ⟨(1, 0, 0), .app .error (.constant (.data (.bigInt (.int 7))))⟩ ∧
    apply_params_to_script
      (fun _ => some (.array [.bigInt (.int 7)]))
      (fun _ => .ok ⟨(1, 0, 0), .error⟩)
      (fun _ => .ok [3]) [0] [1] = some (.ok [3]) :=
  ⟨rfl,
    (((C7_apply_params_amended
        (fun _ => some (.array [.bigInt (.int 7)]))
        (fun _ => .ok ⟨(1, 0, 0), .error⟩)
        (fun _ => .ok [3]) [0] [1]).2.1
      [.bigInt (.int 7)] rfl).2 ⟨(1, 0, 0), .error⟩ rfl).1 [3] rfl⟩

end Tx

/- ===================================================================
   Claim C4 - the occurs check of Environment::unify
   (src/src/nano-lang/src/tipo/env.rs, unify lines 1187-1342,
    unify_unbound_type lines 1521-1572, unify_enclosed_type 1574-1596;
    Type/TypeVar and the is_* predicates from src/src/nano-lang/src/tipo.rs).

   The Rust `Arc<Type>` / `Arc<RefCell<TypeVar>>` graph is embedded as a
   pure tree: each cell is replaced by its current contents, so `Tipo`
   below is a snapshot of the type seen by one `unify` call.  The
   in-place writes that `unify` performs on `RefCell`s (linking an
   unbound variable, turning an unbound variable into a generic) are not
   tracked: the model returns only the `Result<(), Error>` verdict of
   the call on the given snapshot, which is what the claim is about.
   `Error` itself lives outside src/ (tipo/error.rs in src/ holds only
   Snippet and UnkownLabels), so the two unification variants that
   env.rs constructs - CouldNotUnify { expected, given, location, .. }
   and RecursiveType { location } - are modelled from those construction
   sites, with Span as a Nat and flip_unify modelled from its use at
   env.rs:1261 as swapping expected with given. -/

namespace Tipos

mutual
/-- tipo.rs `Type`: App { public, module, name, args } / Fn { args, ret } /
Var { tipo } / Tuple { elems }, with `Arc` and `RefCell` flattened. -/
inductive Tipo : Type where
  | app (pub2 : Bool) (module name : String) (args : List Tipo)
  | fn (args : List Tipo) (ret : Tipo)
  | var (tv : TipoVar)
  | tuple (elems : List Tipo)
/-- tipo.rs `TypeVar`: Unbound { id } / Link { tipo } / Generic { id }. -/
inductive TipoVar : Type where
  | unbound (id : Nat)
  | link (tipo : Tipo)
  | generic (id : Nat)
end

mutual
/-- The derived `PartialEq` of `Type` (`t1 == t2` at env.rs:1193):
all fields compared structurally, `Arc`/`RefCell` by contents. -/
def beqTipo : Tipo → Tipo → Bool
  | .app p1 m1 n1 a1, .app p2 m2 n2 a2 =>
      p1 == p2 && m1 == m2 && n1 == n2 && beqTipoList a1 a2
  | .fn a1 r1, .fn a2 r2 => beqTipoList a1 a2 && beqTipo r1 r2
  | .var v1, .var v2 => beqTipoVar v1 v2
  | .tuple e1, .tuple e2 => beqTipoList e1 e2
  | _, _ => false

def beqTipoList : List Tipo → List Tipo → Bool
  | [], [] => true
  | a :: as1, b :: bs => beqTipo a b && beqTipoList as1 bs
  | _, _ => false

def beqTipoVar : TipoVar → TipoVar → Bool
  | .unbound i, .unbound j => i == j
  | .link a, .link b => beqTipo a b
  | .generic i, .generic j => i == j
  | _, _ => false
end

/-- tipo.rs `TypeVar::is_unbound`: matches!(self, Unbound { .. }). -/
def isUnboundVar : TipoVar → Bool
  | .unbound _ => true
  | _ => false

/-- tipo.rs `Type::is_unbound`: a Var whose cell is Unbound. -/
def isUnbound : Tipo → Bool
  | .var tv => isUnboundVar tv
  | _ => false

/-- tipo.rs `Type::is_function`: matches!(self, Fn { .. }). -/
def isFunction : Tipo → Bool
  | .fn _ _ => true
  | _ => false

mutual
/-- tipo.rs `Type::is_string`: App named "String" in the empty module,
or a Var following its Link. -/
def isString : Tipo → Bool
  | .app _ m n _ => n == "String" && m == ""
  | .var tv => isStringVar tv
  | _ => false

def isStringVar : TipoVar → Bool
  | .link t => isString t
  | _ => false
end

mutual
/-- tipo.rs `Type::is_data`: App named "Data" in the empty module,
or a Var following its Link. -/
def isData : Tipo → Bool
  | .app _ m n _ => n == "Data" && m == ""
  | .var tv => isDataVar tv
  | _ => false

def isDataVar : TipoVar → Bool
  | .link t => isData t
  | _ => false
end

mutual
/-- tipo.rs `Type::is_generic`: the source loops
`is_a_generic = is_a_generic || arg.is_generic()` over args/elems,
i.e. an or-fold over the element list. -/
def isGeneric : Tipo → Bool
  | .app _ _ _ args => isGenericList args
  | .var tv => isGenericVar tv
  | .tuple elems => isGenericList elems
  | .fn args ret => isGenericList args || isGeneric ret

def isGenericList : List Tipo → Bool
  | [] => false
  | t :: ts => isGeneric t || isGenericList ts

def isGenericVar : TipoVar → Bool
  | .generic _ => true
  | .link t => isGeneric t
  | _ => false
end

/-- The two unification variants of tipo's `Error` that env.rs builds
(CouldNotUnify { expected, given, location, situation, rigid_type_names }
with the latter two always None/empty in unify, and
RecursiveType { location }); Span is modelled as a Nat. -/
inductive UnifyError : Type where
  | couldNotUnify (expected given : Tipo) (location : Nat)
  | recursiveType (location : Nat)

/-- `Error::flip_unify`, modelled from its use at env.rs:1261: the error
of the symmetric call `unify(t2, t1)` has expected and given swapped
back. -/
def flip_unify : UnifyError → UnifyError
  | .couldNotUnify e g loc => .couldNotUnify g e loc
  | e => e

/-- env.rs `unify_enclosed_type`: a CouldNotUnify from a sub-unification
is re-reported against the enclosing pair, anything else passes. -/
def unify_enclosed_type (e1 e2 : Tipo) :
    Except UnifyError Unit → Except UnifyError Unit
  | .error (.couldNotUnify _ _ loc) => .error (.couldNotUnify e1 e2 loc)
  | r => r

mutual
/-- env.rs `unify_unbound_type` (lines 1521-1572): walk the type; a Link
is followed, an Unbound cell equal to own_id is the recursive-type error,
other Unbound cells are rewritten to themselves (a no-op here), Generic
is accepted, and App/Fn/Tuple recurse over their components with `?`. -/
def unify_unbound_type : Tipo → Nat → Nat → Except UnifyError Unit
  | .var (.link t), own, loc => unify_unbound_type t own loc
  | .var (.unbound id), own, loc =>
      if id == own then .error (.recursiveType loc) else .ok ()
  | .var (.generic _), _, _ => .ok ()
  | .app _ _ _ args, own, loc => uutArgs args own loc
  | .fn args ret, own, loc =>
      match uutArgs args own loc with
      | .error e => .error e
      | .ok _ => unify_unbound_type ret own loc
  | .tuple elems, own, loc => uutArgs elems own loc

/-- The `for arg in args { unify_unbound_type(arg, ...)? }` loops. -/
def uutArgs : List Tipo → Nat → Nat → Except UnifyError Unit
  | [], _, _ => .ok ()
  | t :: ts, own, loc =>
      match unify_unbound_type t own loc with
      | .error e => .error e
      | .ok _ => uutArgs ts own loc
end

mutual
/-- Spec-side definition for the claim's "id occurs in the structure of
T": some Unbound cell with that id is reachable, links included. -/
def occursUnbound (id : Nat) : Tipo → Bool
  | .var (.unbound j) => j == id
  | .var (.link t) => occursUnbound id t
  | .var (.generic _) => false
  | .app _ _ _ args => occursUnboundList id args
  | .fn args ret => occursUnboundList id args || occursUnbound id ret
  | .tuple elems => occursUnboundList id elems

def occursUnboundList (id : Nat) : List Tipo → Bool
  | [] => false
  | t :: ts => occursUnbound id t || occursUnboundList id ts
end

/-- Resolve the outer Link chain of a type (what repeated applications of
unify's two link-deref steps reach). -/
def stripLinks : Tipo → Tipo
  | .var (.link t) => stripLinks t
  | t => t

/-- Termination helper for `unify`: 0 on Var, 1 otherwise; the
symmetric re-call `unify(t2, t1)` happens only when t2 is a Var and t1
is not, so this flag drops while the sizes are unchanged. -/
def varFlag : Tipo → Nat
  | .var _ => 0
  | _ => 1

theorem varFlag_le (t : Tipo) : varFlag t ≤ 1 := by
  cases t <;> simp [varFlag]

mutual
/-- env.rs `Environment::unify` (lines 1187-1342) on a snapshot:
(1) structural equality accepts; (2) the allow_cast Data escape hatch;
(3) a Link on the t2 side is followed; (4) a Var on the t1 side acts by
its cell: Link is followed, Unbound runs the occurs check
unify_unbound_type (then links, a write not tracked here), Generic
absorbs an unbound t2 and otherwise fails; (5) a remaining Var on the
t2 side flips the call, flipping the error; (6) App/Tuple/Fn recurse
componentwise, everything else is CouldNotUnify. -/
def unify (t1 t2 : Tipo) (location : Nat) (allow_cast : Bool) :
    Except UnifyError Unit :=
  if beqTipo t1 t2 then .ok ()
  else if allow_cast && (isData t1 || isData t2)
      && !(isUnbound t1 || isUnbound t2)
      && !(isFunction t1 || isFunction t2)
      && !(isGeneric t1 || isGeneric t2)
      && !(isString t1 || isString t2) then .ok ()
  else
    match t1, t2 with
    | t1x, .var (.link tl) => unify t1x tl location allow_cast
    | .var (.link tl), t2x => unify tl t2x location allow_cast
    | .var (.unbound vid), _ =>
        match unify_unbound_type t2 vid location with
        | .error e => .error e
        | .ok _ => .ok ()
    | .var (.generic _), .var (.unbound _) => .ok ()
    | .var (.generic _), _ => .error (.couldNotUnify t1 t2 location)
    | .app p1 m1x n1x args1, .var tv2 =>
        match unify (.var tv2) (.app p1 m1x n1x args1) location allow_cast with
        | .error e => .error (flip_unify e)
        | .ok u => .ok u
    | .fn args1 ret1, .var tv2 =>
        match unify (.var tv2) (.fn args1 ret1) location allow_cast with
        | .error e => .error (flip_unify e)
        | .ok u => .ok u
    | .tuple elems1, .var tv2 =>
        match unify (.var tv2) (.tuple elems1) location allow_cast with
        | .error e => .error (flip_unify e)
        | .ok u => .ok u
    | .app _ m1 n1 args1, .app _ m2 n2 args2 =>
        if m1 == m2 && n1 == n2 && args1.length == args2.length then
          unifyEnclosedArgs t1 t2 args1 args2 location allow_cast
        else .error (.couldNotUnify t1 t2 location)
    | .tuple elems1, .tuple elems2 =>
        if elems1.length == elems2.length then
          unifyEnclosedArgs t1 t2 elems1 elems2 location allow_cast
        else .error (.couldNotUnify t1 t2 location)
    | .fn args1 ret1, .fn args2 ret2 =>
        if args1.length == args2.length then
          match unifyFnArgs t1 t2 args1 args2 location allow_cast with
          | .error e => .error e
          | .ok _ =>
            match unify ret1 ret2 location allow_cast with
            | .error _ => .error (.couldNotUnify t1 t2 location)
            | .ok u => .ok u
        else .error (.couldNotUnify t1 t2 location)
    | _, _ => .error (.couldNotUnify t1 t2 location)
termination_by 2 * (sizeOf t1 + sizeOf t2) + min (varFlag t1) 1
decreasing_by
all_goals simp_wf
all_goals try simp [varFlag]
all_goals omega


/-- The `for (a, b) in args1.iter().zip(args2)` loops of the App and
Tuple arms, each sub-result routed through unify_enclosed_type. -/
def unifyEnclosedArgs (e1 e2 : Tipo) (l1 l2 : List Tipo)
    (location : Nat) (allow_cast : Bool) : Except UnifyError Unit :=
  match l1, l2 with
  | [], _ => .ok ()
  | _, [] => .ok ()
  | a :: as1, b :: bs =>
      match unify_enclosed_type e1 e2 (unify a b location allow_cast) with
      | .error e => .error e
      | .ok _ => unifyEnclosedArgs e1 e2 as1 bs location allow_cast
termination_by 2 * (sizeOf l1 + sizeOf l2) + 1
decreasing_by
all_goals simp_wf
all_goals try simp [varFlag]
all_goals omega


/-- The argument loop of the Fn arm: each sub-error is replaced by a
CouldNotUnify on the whole function types. -/
def unifyFnArgs (e1 e2 : Tipo) (l1 l2 : List Tipo)
    (location : Nat) (allow_cast : Bool) : Except UnifyError Unit :=
  match l1, l2 with
  | [], _ => .ok ()
  | _, [] => .ok ()
  | a :: as1, b :: bs =>
      match unify a b location allow_cast with
      | .error _ => .error (.couldNotUnify e1 e2 location)
      | .ok _ => unifyFnArgs e1 e2 as1 bs location allow_cast
termination_by 2 * (sizeOf l1 + sizeOf l2) + 1
decreasing_by
all_goals simp_wf
all_goals try simp [varFlag]
all_goals omega

end

mutual
/-- unify_unbound_type is exactly the occurs check: it errors with
RecursiveType at the call's location precisely when own occurs in the
type, and otherwise succeeds. -/
theorem uut_occurs : (t : Tipo) → (own loc : Nat) →
    unify_unbound_type t own loc =
      if occursUnbound own t then Except.error (.recursiveType loc)
      else Except.ok ()
  | .var (.link t), own, loc => by
      simp only [unify_unbound_type, occursUnbound]
      exact uut_occurs t own loc
  | .var (.unbound j), own, loc => by
      simp only [unify_unbound_type, occursUnbound]
  | .var (.generic g), own, loc => by
      simp [unify_unbound_type, occursUnbound]
  | .app p m n args, own, loc => by
      simp only [unify_unbound_type, occursUnbound]
      exact uutArgs_occurs args own loc
  | .fn args ret, own, loc => by
      simp only [unify_unbound_type, occursUnbound]
      rw [uutArgs_occurs args own loc, uut_occurs ret own loc]
      rcases Bool.eq_false_or_eq_true (occursUnboundList own args) with h | h <;>
        simp [h]
  | .tuple elems, own, loc => by
      simp only [unify_unbound_type, occursUnbound]
      exact uutArgs_occurs elems own loc

theorem uutArgs_occurs : (ts : List Tipo) → (own loc : Nat) →
    uutArgs ts own loc =
      if occursUnboundList own ts then Except.error (.recursiveType loc)
      else Except.ok ()
  | [], _, _ => by simp [uutArgs, occursUnboundList]
  | t :: ts, own, loc => by
      simp only [uutArgs, occursUnboundList]
      rw [uut_occurs t own loc]
      rcases Bool.eq_false_or_eq_true (occursUnbound own t) with h | h <;> simp [h]
      exact uutArgs_occurs ts own loc
end

/-- The structural equality test accepts Var(Unbound id) against exactly
the same tree. -/
theorem beqTipo_var_unbound (id : Nat) (t : Tipo) :
    beqTipo (.var (.unbound id)) t = true ↔ t = .var (.unbound id) := by
  cases t with
  | var tv =>
      cases tv with
      | unbound j =>
          simp only [beqTipo, beqTipoVar, beq_iff_eq, Tipo.var.injEq,
            TipoVar.unbound.injEq]
          exact eq_comm
      | link t2 => simp [beqTipo, beqTipoVar]
      | generic g => simp [beqTipo, beqTipoVar]
  | app p m n args => simp [beqTipo]
  | fn args ret => simp [beqTipo]
  | tuple elems => simp [beqTipo]

/-- Claim C4, counterexample: T = Var(Link(Var(Unbound 0))) is distinct
from a = Var(Unbound 0) and id 0 occurs in T's structure, yet unify(a, T)
returns Ok for both values of allow_cast instead of a recursive-type
error: the Link on the t2 side is followed before any occurs check, the
chain resolves T to the variable itself, and the equality test accepts. -/
theorem C4_unify_occurs_counterexample :
    (Tipo.var (.link (.var (.unbound 0))) ≠ Tipo.var (.unbound 0)) ∧
    occursUnbound 0 (.var (.link (.var (.unbound 0)))) = true ∧
    unify (.var (.unbound 0)) (.var (.link (.var (.unbound 0)))) 7 true =
      .ok () ∧
    unify (.var (.unbound 0)) (.var (.link (.var (.unbound 0)))) 7 false =
      .ok () := by
  refine ⟨by simp, by rfl, ?_, ?_⟩ <;>
    simp [unify, beqTipo, beqTipoVar, isData, isDataVar, isUnbound,
      isUnboundVar, isFunction, isGeneric, isGenericVar, isString,
      isStringVar]

/-- If id occurs in T and T's link chain does not resolve to
Var(Unbound id) itself, unify(Var(Unbound id), T) is the recursive-type
error, whatever the location and allow_cast. -/
theorem unify_occurs_error : (T : Tipo) → (id loc : Nat) → (cast : Bool) →
    occursUnbound id T = true → stripLinks T ≠ Tipo.var (.unbound id) →
    unify (.var (.unbound id)) T loc cast = .error (.recursiveType loc)
  | T, id, loc, cast, hocc, hne => by
    have hTne : T ≠ Tipo.var (.unbound id) := by
      intro h
      exact hne (by rw [h]; rfl)
    have hbeq : beqTipo (.var (.unbound id)) T = false := by
      rcases Bool.eq_false_or_eq_true (beqTipo (.var (.unbound id)) T)
        with h | h
      · exact absurd ((beqTipo_var_unbound id T).mp h) hTne
      · exact h
    cases T with
    | var tv =>
        cases tv with
        | link T2 =>
            rw [unify.eq_def]
            simp only [hbeq, Bool.false_eq_true, if_false, isUnbound,
              isUnboundVar, Bool.true_or, Bool.not_true, Bool.and_false,
              Bool.false_and]
            exact unify_occurs_error T2 id loc cast
              (by simpa [occursUnbound] using hocc)
              (by simpa [stripLinks] using hne)
        | unbound j =>
            exfalso
            have hj : j = id := by simpa [occursUnbound] using hocc
            exact hTne (by rw [hj])
        | generic g => simp [occursUnbound] at hocc
    | app p m n args =>
        rw [unify.eq_def]
        simp [hbeq, isUnbound, isUnboundVar, uut_occurs, hocc]
    | fn args ret =>
        rw [unify.eq_def]
        simp [hbeq, isUnbound, isUnboundVar, uut_occurs, hocc]
    | tuple elems =>
        rw [unify.eq_def]
        simp [hbeq, isUnbound, isUnboundVar, uut_occurs, hocc]

/-- Claim C4 (amended): for an unbound variable a = Var(Unbound id) and
any type T in whose structure id occurs, PROVIDED T's link chain does not
resolve to a itself, Environment::unify(a, T, location, allow_cast)
fails with the recursive-type error for both values of allow_cast: the
occurs check unify_unbound_type refuses to link the variable to a type
containing its own id.  The proviso is necessary: see the
counterexample, where T ≠ a but its links resolve to a and unify
accepts. -/
theorem C4_unify_occurs_amended (T : Tipo) (id loc : Nat) (cast : Bool)
    (hocc : occursUnbound id T = true)
    (hne : stripLinks T ≠ Tipo.var (.unbound id)) :
    unify (.var (.unbound id)) T loc cast = .error (.recursiveType loc) :=
  unify_occurs_error T id loc cast hocc hne

/-- Concrete instance of the amended Claim C4: unifying α0 with
fn(α0) → α1 reports the recursive type. -/
theorem C4_unify_occurs_amended_witness :
    occursUnbound 0 (Tipo.fn [Tipo.var (.unbound 0)] (Tipo.var (.unbound 1)))
      = true ∧
    stripLinks (Tipo.fn [Tipo.var (.unbound 0)] (Tipo.var (.unbound 1))) ≠
      Tipo.var (.unbound 0) ∧
    unify (.var (.unbound 0))
      (.fn [.var (.unbound 0)] (.var (.unbound 1))) 5 true =
      .error (.recursiveType 5) :=
  ⟨rfl, by simp [stripLinks],
    C4_unify_occurs_amended (.fn [.var (.unbound 0)] (.var (.unbound 1)))
      0 5 true rfl (by simp [stripLinks])⟩

end Tipos
